import Mathlib

/-!
Verification of the pg_hibernator snapshot/restore engine
(`src/pg_hibernate.c`), as a shallow embedding.

The embedding covers:
* the buffer-saver (`SaveBuffers`, lines 747-966) — sorting the scanned
  buffers with `SavedBufferCmp` and streaming them into per-database
  save-files with run-length ("N") compression;
* the block reader (`ReadBlocks`, lines 438-690) — decoding a save-file
  record stream and issuing buffer fetches, skipping stale entries;
* the restore scheduler (`processOnePendingWorker`, lines 277-317).

Machine integers are modelled as `Nat` (Oid, BlockNumber) and `Int`
(ForkNumber, whose sentinel InvalidForkNumber is -1), with an explicit
`% 2^32` where the C code performs `uint32` arithmetic that could wrap
(the writer's look-ahead comparison and the reader's range-expansion
bound).  `InvalidBlockNumber` is `0xFFFFFFFF`, `InvalidOid` is `0`,
exactly as in PostgreSQL.  File-level I/O (`fileRead`/`fileWrite`,
`misc.c`) is external to the analyzed source; streams are therefore
modelled at record granularity, a database name is modelled as the
`Option Nat` written by `writeDBName` (`none` for the empty / global
name), and the catalog lookups done by the reader (`GetRelOid`,
`smgrexists`, `RelationGetNumberOfBlocksInFork`) are an abstract
environment `DbEnv`.
-/

namespace PgHibernate

/-- `2^32`, the modulus of `uint32` arithmetic. -/
def W32 : Nat := 4294967296

/-- `InvalidBlockNumber = 0xFFFFFFFF`. -/
def INVB : Nat := 4294967295

/-- One scanned buffer tag, struct `SavedBuffer` (pg_hibernate.c:38-45).
`forknum` is an `Int` because C's `ForkNumber` is a signed enum whose
sentinel `InvalidForkNumber` is `-1`. -/
structure SavedBuffer where
  database : Nat
  filenode : Nat
  forknum  : Int
  blocknum : Nat
deriving DecidableEq

/-- One decoded save-file record.  The on-disk tags are `'r'`, `'f'`,
`'b'`, `'N'`; `other` stands for any other (corrupt) tag byte. -/
inductive Record where
  | rel (filenode : Nat)
  | fork (forknum : Int)
  | block (blocknum : Nat)
  | range (len : Nat)
  | other (tag : Nat)
deriving DecidableEq

/-- One save-file: the `Option Nat` written by `writeDBName` (`none`
models the empty string written for the global-objects file, `some d`
models `get_database_name d`), the numeric file name built by
`getSavefileName(database_counter)`, and the record stream. -/
structure SFile where
  name : Option Nat
  filenum : Nat
  records : List Record
deriving DecidableEq

/-- `SavedBufferCmp` (pg_hibernate.c:974-988): four-field lexicographic
comparison via the `svdbfrcmp` macro; `0` is returned only for identical
keys (where the C code has `Assert(false)`). -/
def SavedBufferCmp (a b : SavedBuffer) : Int :=
  if a.database < b.database then -1
  else if b.database < a.database then 1
  else if a.filenode < b.filenode then -1
  else if b.filenode < a.filenode then 1
  else if a.forknum < b.forknum then -1
  else if b.forknum < a.forknum then 1
  else if a.blocknum < b.blocknum then -1
  else if b.blocknum < a.blocknum then 1
  else 0

/-- The order relation induced by `SavedBufferCmp`, used to model
`pg_qsort(saved_buffers, num_buffers, sizeof(SavedBuffer), SavedBufferCmp)`. -/
def bufLE (a b : SavedBuffer) : Prop := SavedBufferCmp a b ≤ 0

instance : DecidableRel bufLE := fun a b => Int.decLe (SavedBufferCmp a b) 0

/-- The sort performed at pg_hibernate.c:813.  `pg_qsort` with a
total, antisymmetric comparator produces the unique sorted permutation,
so any correct sorting algorithm models it. -/
def sortBufs (l : List SavedBuffer) : List SavedBuffer := List.insertionSort bufLE l

/-- Writer state: the cursor variables of `SaveBuffers`
(pg_hibernate.c:756-763) plus the files written so far.  `curFile` is
the `FILE *file` (`none` = `NULL`); `firstDone` records whether the
`i == 0` special case has run; `assertOk` tracks whether every `Assert`
encountered so far held. -/
structure WState where
  database_counter : Nat
  prev_database : Nat
  prev_filenode : Nat
  prev_forknum : Int
  prev_blocknum : Nat
  doneFiles : List SFile
  curFile : Option SFile
  firstDone : Bool
  assertOk : Bool
deriving DecidableEq

/-- Initial writer state (pg_hibernate.c:757-762): counters `0`,
`prev_database = prev_filenode = InvalidOid = 0`,
`prev_forknum = InvalidForkNumber = -1`,
`prev_blocknum = InvalidBlockNumber`, no file open. -/
def initW : WState :=
  ⟨0, 0, 0, -1, INVB, [], none, false, true⟩

/-- `fileWrite` of one record into the currently open file.  (If no file
is open the C code would crash in `fwrite`; that situation is unreachable
once the `i == 0` branch has run.) -/
def emitRec (s : WState) (r : Record) : WState :=
  { s with curFile := s.curFile.map (fun F => ⟨F.name, F.filenum, F.records ++ [r]⟩) }

/-- The `i == 0` special case of the writer loop (pg_hibernate.c:827-848):
assert the first sorted buffer belongs to a global object
(`Assert(buf->database == InvalidOid)`), reserve save-file `1`, write the
empty database name, and set `prev_database`. -/
def applyFirst (s : WState) (b : SavedBuffer) : WState :=
  if s.firstDone then s
  else
    { s with
      firstDone := true
      assertOk := s.assertOk && decide (b.database = 0)
      database_counter := 1
      curFile := some ⟨none, 1, []⟩
      prev_database := b.database }

/-- The database-change branch (pg_hibernate.c:850-880): close the
current file, open save-file `database_counter + 1` with the database's
name, and reset the trackers. -/
def applyDbChange (s : WState) (b : SavedBuffer) : WState :=
  if b.database = s.prev_database then s
  else
    { s with
      database_counter := s.database_counter + 1
      doneFiles := s.doneFiles ++ (match s.curFile with | some F => [F] | none => [])
      curFile := some ⟨some b.database, s.database_counter + 1, []⟩
      prev_database := b.database
      prev_filenode := 0
      prev_forknum := -1
      prev_blocknum := INVB }

/-- The writer's look-ahead loop (pg_hibernate.c:925-940): count how many
following buffers continue the current run.  The block-number comparison
`tmp->blocknum == (prev_blocknum + range_counter + 1)` is `uint32`
arithmetic, hence the `% W32`. -/
def lookahead (db fn : Nat) (fo : Int) (pb : Nat) : Nat → List SavedBuffer → Nat
  | rc, [] => rc
  | rc, t :: rest =>
    if t.database = db ∧ t.filenode = fn ∧ t.forknum = fo ∧
        t.blocknum = (pb + rc + 1) % W32 then
      lookahead db fn fo pb (rc + 1) rest
    else rc

/-- The record-emitting part of one writer-loop iteration
(pg_hibernate.c:882-952), entered after the `i == 0` and
database-change branches: emit `'r'` on filenode change, `'f'` on fork
change, the `'b'` record, and the `'N'` record if the look-ahead found a
run; returns the new state and `range_counter` (the loop then advances
`i` past the consumed entries). -/
def writeStepRecs (s : WState) (b : SavedBuffer) (rest : List SavedBuffer) :
    WState × Nat :=
  let s1 :=
    if b.filenode = s.prev_filenode then s
    else
      { emitRec s (Record.rel b.filenode) with
        prev_filenode := b.filenode
        prev_forknum := -1
        prev_blocknum := INVB }
  let s2 :=
    if b.forknum = s1.prev_forknum then s1
    else
      { emitRec s1 (Record.fork b.forknum) with
        prev_forknum := b.forknum
        prev_blocknum := INVB }
  let s3 := { emitRec s2 (Record.block b.blocknum) with prev_blocknum := b.blocknum }
  let rc := lookahead s3.prev_database s3.prev_filenode s3.prev_forknum
              s3.prev_blocknum 0 rest
  let s4 := if rc = 0 then s3 else emitRec s3 (Record.range rc)
  (s4, rc)

/-- One full iteration of the writer loop body (pg_hibernate.c:822-953). -/
def writeStep (s : WState) (b : SavedBuffer) (rest : List SavedBuffer) :
    WState × Nat :=
  writeStepRecs (applyDbChange (applyFirst s b) b) b rest

/-- Fuelled writer loop (`for (i = 0; i < num_buffers; ++i)` with
`i += range_counter` inside); fuel bounds the number of iterations and is
irrelevant as soon as it is at least the list length. -/
def writeLoopF : Nat → WState → List SavedBuffer → WState
  | 0, s, _ => s
  | _ + 1, s, [] => s
  | fuel + 1, s, b :: rest =>
    writeLoopF fuel (writeStep s b rest).1 (List.drop (writeStep s b rest).2 rest)

/-- The writer loop over a (sorted) buffer list. -/
def writeLoop (s : WState) (l : List SavedBuffer) : WState := writeLoopF l.length s l

/-- The files on disk when `SaveBuffers` returns: the closed files plus
the still-open one (closed at pg_hibernate.c:959). -/
def closeFiles (s : WState) : List SFile :=
  s.doneFiles ++ (match s.curFile with | some F => [F] | none => [])

/-- Final writer result: the files written, and whether every `Assert`
held — including the final `Assert(file != NULL)` (pg_hibernate.c:958),
which fails when no buffer was scanned and hence no file was opened. -/
def finishW (s : WState) : List SFile × Bool :=
  (closeFiles s, s.assertOk && s.curFile.isSome)

/-- `SaveBuffers` (pg_hibernate.c:747-966), from the scanned collection
to the save-files on disk: sort with `SavedBufferCmp`, then stream. -/
def SaveBuffers (l : List SavedBuffer) : List SFile × Bool :=
  finishW (writeLoop initW (sortBufs l))

/-! ### Specification-level view of the writer output -/

/-- Mod-free run length: the number of immediately following buffers that
continue a strictly consecutive run of blocks of one
(database, filenode, forknum).  Equals `lookahead` whenever no `uint32`
wrap can occur (valid block numbers). -/
def runLen (db fn : Nat) (fo : Int) : Nat → List SavedBuffer → Nat
  | _, [] => 0
  | pb, t :: rest =>
    if t.database = db ∧ t.filenode = fn ∧ t.forknum = fo ∧ t.blocknum = pb + 1 then
      runLen db fn fo (pb + 1) rest + 1
    else 0

/-- Fuelled record stream produced for one database group, starting from
filenode cursor `fn0` and fork cursor `fo0`. -/
def groupRecsF : Nat → Nat → Int → List SavedBuffer → List Record
  | 0, _, _, _ => []
  | _ + 1, _, _, [] => []
  | fuel + 1, fn0, fo0, b :: rest =>
    let fo1 : Int := if b.filenode = fn0 then fo0 else -1
    let rc := runLen b.database b.filenode b.forknum b.blocknum rest
    ((if b.filenode = fn0 then [] else [Record.rel b.filenode]) ++
     (if b.forknum = fo1 then [] else [Record.fork b.forknum]) ++
     [Record.block b.blocknum] ++
     (if rc = 0 then [] else [Record.range rc])) ++
    groupRecsF fuel b.filenode b.forknum (rest.drop rc)

/-- Record stream produced for one database group. -/
def groupRecs (fn0 : Nat) (fo0 : Int) (l : List SavedBuffer) : List Record :=
  groupRecsF l.length fn0 fo0 l

/-- Fuelled construction of the save-files written after file `1`, one
per consecutive database group, numbered from `cnt + 1`. -/
def buildFilesAuxF : Nat → Nat → List SavedBuffer → List SFile
  | 0, _, _ => []
  | _ + 1, _, [] => []
  | fuel + 1, cnt, b :: rest =>
    ⟨some b.database, cnt + 1,
      groupRecs 0 (-1) ((b :: rest).takeWhile (fun x => x.database = b.database))⟩ ::
    buildFilesAuxF fuel (cnt + 1) ((b :: rest).dropWhile (fun x => x.database = b.database))

/-- The save-files written after file `1`. -/
def buildFilesAux (cnt : Nat) (l : List SavedBuffer) : List SFile :=
  buildFilesAuxF l.length cnt l

/-- Specification-level description of the writer's whole output on a
sorted buffer list: file `1` (empty name) holds the first database
group; each further group gets its own file named after its database. -/
def buildFiles : List SavedBuffer → List SFile
  | [] => []
  | b :: rest =>
    ⟨none, 1, groupRecs 0 (-1) ((b :: rest).takeWhile (fun x => x.database = b.database))⟩ ::
    buildFilesAux 1 ((b :: rest).dropWhile (fun x => x.database = b.database))

/-- The records one writer iteration emits for the buffer `b` when the
filenode cursor is `fn0`, the fork cursor is `fo0`, and the look-ahead
found `rc` continuation buffers. -/
def stepRecs (fn0 : Nat) (fo0 : Int) (b : SavedBuffer) (rc : Nat) : List Record :=
  (if b.filenode = fn0 then [] else [Record.rel b.filenode]) ++
  (if b.forknum = (if b.filenode = fn0 then fo0 else -1) then []
   else [Record.fork b.forknum]) ++
  [Record.block b.blocknum] ++
  (if rc = 0 then [] else [Record.range rc])

/-! ### The block reader -/

/-- Catalog environment seen by one reader worker after it connected to
the database named in the save-file header: `relOid` is `GetRelOid`
(`none` = `InvalidOid`, relation rewritten/dropped), `forkExists` is
`smgrexists`, `nblocksF` is `RelationGetNumberOfBlocksInFork`. -/
structure DbEnv where
  relOid : Nat → Option Nat
  forkExists : Nat → Int → Bool
  nblocksF : Nat → Int → Nat

/-- Reader-fatal decoding errors (`ereport(ERROR, ...)` inside
`ReadBlocks`); each aborts the worker before the save-file is removed. -/
inductive RErr where
  | forkWithoutRel
  | blockWithoutFork
  | rangeWithoutBlock
  | unknownMarker
deriving DecidableEq

/-- One issued buffer fetch, identified by the filenode / fork / block
context the `ReadBufferExtended` call was made under. -/
abbrev RFetch : Type := Nat × Int × Nat

/-- Reader state: the locals of `ReadBlocks` (pg_hibernate.c:441-456).
`rel` is the open relation (`none` = `NULL`); `record_forknum` starts at
`InvalidForkNumber = -1`; `record_blocknum` starts at
`InvalidBlockNumber`. -/
structure RState where
  rel : Option Nat
  skip_relation : Bool
  skip_fork : Bool
  skip_block : Bool
  record_filenode : Nat
  record_forknum : Int
  record_blocknum : Nat
  nblocks : Nat
  fetches : List RFetch
deriving DecidableEq

/-- Initial reader state (pg_hibernate.c:449-456). -/
def initR : RState := ⟨none, false, false, false, 0, -1, INVB, 0, []⟩

/-- Shutdown-request model: `got_sigterm` is observed `true` from record
index `k` on (`stop = some k`), or never (`stop = none`); the flag is
sticky, so this captures every possible signal arrival. -/
def stopNow (stop : Option Nat) (i : Nat) : Bool :=
  match stop with
  | none => false
  | some k => decide (k ≤ i)

/-- The blocks the `'N'` record expansion loop fetches
(pg_hibernate.c:636-658): `record_blocknum + 1` up to the `uint32` sum
`record_blocknum + len`, stopping at the first block `≥ nblocks` (the
`break` at line 651). -/
def rangeBlocks (bl len nblocks : Nat) : List Nat :=
  (List.range' (bl + 1) ((bl + len) % W32 + 1 - (bl + 1))).takeWhile
    (fun x => decide (x < nblocks))

/-- Decoding of one record of `ReadBlocks`' loop body, the `switch` at
pg_hibernate.c:513-668.  The four `ereport(ERROR, ...)` paths abort the
worker. -/
def readStep1 (env : DbEnv) (s : RState) : Record → Except RErr RState
  | Record.rel fn =>
    match env.relOid fn with
    | none =>
      Except.ok { s with
        rel := none, record_forknum := -1, record_blocknum := INVB,
        nblocks := 0, record_filenode := fn, skip_relation := true }
    | some r =>
      Except.ok { s with
        rel := some r, record_forknum := -1, record_blocknum := INVB,
        nblocks := 0, record_filenode := fn, skip_relation := false }
  | Record.fork fo =>
    if s.skip_relation then
      Except.ok { s with record_blocknum := INVB, nblocks := 0, record_forknum := fo }
    else
      match s.rel with
      | none => Except.error RErr.forkWithoutRel
      | some r =>
        if env.forkExists r fo then
          Except.ok { s with
            record_blocknum := INVB, record_forknum := fo,
            skip_fork := false, nblocks := env.nblocksF r fo }
        else
          Except.ok { s with
            record_blocknum := INVB, nblocks := 0, record_forknum := fo,
            skip_fork := true }
  | Record.block bl =>
    if s.record_forknum = -1 then Except.error RErr.blockWithoutFork
    else if s.skip_relation || s.skip_fork then
      Except.ok { s with record_blocknum := bl }
    else if s.nblocks ≤ bl then
      Except.ok { s with record_blocknum := bl, skip_block := true }
    else
      Except.ok { s with
        record_blocknum := bl, skip_block := false
        fetches := s.fetches ++ [(s.record_filenode, s.record_forknum, bl)] }
  | Record.range len =>
    if s.record_blocknum = INVB then Except.error RErr.rangeWithoutBlock
    else if s.skip_relation || s.skip_fork || s.skip_block then Except.ok s
    else
      Except.ok { s with
        fetches := s.fetches ++
          (rangeBlocks s.record_blocknum len s.nblocks).map
            (fun bl => (s.record_filenode, s.record_forknum, bl)) }
  | Record.other _ => Except.error RErr.unknownMarker

/-- The record-decoding loop of `ReadBlocks` (pg_hibernate.c:489-669).
The `got_sigterm` check (line 507) breaks out of the loop — an orderly
stop, `Except.ok`. -/
def readLoop (env : DbEnv) (stop : Option Nat) :
    RState → Nat → List Record → Except RErr RState
  | s, _, [] => Except.ok s
  | s, i, rec :: rest =>
    if stopNow stop i then Except.ok s
    else
      match readStep1 env s rec with
      | Except.ok s2 => readLoop env stop s2 (i + 1) rest
      | Except.error e => Except.error e

/-- Observable outcome of one reader worker that did not hit a fatal
error: the fetches it issued, and whether it removed its save-file. -/
structure ReadOutcome where
  fetches : List RFetch
  fileRemoved : Bool
deriving DecidableEq

/-- `ReadBlocks` (pg_hibernate.c:438-690) on a decoded record stream.
On every path that leaves the decoding loop normally — end of stream or
`got_sigterm` — the function falls through to `remove(filepath)`
(line 686), so `fileRemoved` is `true`; on an `ereport(ERROR, ...)` path
the worker exits before the removal. -/
def ReadBlocks (env : DbEnv) (stop : Option Nat) (recs : List Record) :
    Except RErr ReadOutcome :=
  match readLoop env stop initR 0 recs with
  | Except.ok s => Except.ok ⟨s.fetches, true⟩
  | Except.error e => Except.error e

/-- Whether a reader outcome removed the save-file. -/
def fileDeleted (r : Except RErr ReadOutcome) : Bool :=
  match r with
  | Except.ok o => o.fileRemoved
  | Except.error _ => false

/-! ### Round-trip bookkeeping -/

/-- The key a fetch request is identified by. -/
def key3 (b : SavedBuffer) : RFetch := (b.filenode, b.forknum, b.blocknum)

/-- Whether an entry is still fresh (non-stale) in environment `env`:
relation resolvable, fork present, block below the fork's current
size. -/
def freshT (env : DbEnv) (f : RFetch) : Bool :=
  match env.relOid f.1 with
  | none => false
  | some r => env.forkExists r f.2.1 && decide (f.2.2 < env.nblocksF r f.2.1)

/-- The save-file header name under which a database's pages are meant
to be replayed: the global namespace (database 0) is the empty name,
every other database its own name. -/
def mapName (d : Nat) : Option Nat := if d = 0 then none else some d

/-- Replay every produced file, tagging each fetch with the header name
the replaying worker connected under (files that hit a fatal decode
error contribute nothing). -/
def replayAll (env : Option Nat → DbEnv) (files : List SFile) :
    List (Option Nat × RFetch) :=
  files.flatMap (fun F =>
    match ReadBlocks (env F.name) none F.records with
    | Except.ok out => out.fetches.map (fun f => (F.name, f))
    | Except.error _ => [])

/-- The fetch requests the original scanned collection calls for:
each entry, judged in its own database's environment, that is not
stale there. -/
def originalFetches (env : Option Nat → DbEnv) (l : List SavedBuffer) :
    List (Option Nat × RFetch) :=
  (l.filter (fun b => freshT (env (mapName b.database)) (key3 b))).map
    (fun b => (mapName b.database, key3 b))

/-- A buffer tag the scanner can actually produce: a valid relfilenode
(nonzero Oid), a real fork (`forknum ≥ 0`), and a legal block number
(`≤ MaxBlockNumber = 0xFFFFFFFE`). -/
def ValidBuf (b : SavedBuffer) : Prop :=
  b.filenode ≠ 0 ∧ 0 ≤ b.forknum ∧ b.blocknum ≤ 4294967294

instance (b : SavedBuffer) : Decidable (ValidBuf b) :=
  inferInstanceAs (Decidable (_ ∧ _ ∧ _))

/-- All entries of a scanned collection are valid buffer tags. -/
def ValidL (l : List SavedBuffer) : Prop := ∀ b ∈ l, ValidBuf b

instance (l : List SavedBuffer) : Decidable (ValidL l) :=
  List.decidableBAll _ l

/-- Correspondence between the reader state and the writer's cursors
`(fn0, fo0)` at a point between records of one save-file: the recorded
filenode/fork match the cursors, and the skip flags / `nblocks` agree
with what the catalog environment says about them.  At the start of a
file both cursors are the writer's reset values `(0, -1)` and nothing
has been resolved yet. -/
def INV (env : DbEnv) (s : RState) (fn0 : Nat) (fo0 : Int) : Prop :=
  s.record_filenode = fn0 ∧
  s.record_forknum = fo0 ∧
  (fn0 = 0 → s.skip_relation = false ∧ s.rel = none ∧ fo0 = -1) ∧
  (fn0 ≠ 0 → s.rel = env.relOid fn0 ∧ s.skip_relation = (env.relOid fn0).isNone) ∧
  (fo0 ≠ -1 → fn0 ≠ 0) ∧
  (fo0 ≠ -1 → s.skip_relation = false →
    ∀ r, env.relOid fn0 = some r →
      s.skip_fork = ! env.forkExists r fo0 ∧
      s.nblocks = (if env.forkExists r fo0 then env.nblocksF r fo0 else 0))

/-- A concrete per-database catalog environment: database 5 resolves
filenode 10 to relation 77 with every fork present and 100 blocks; every
other database (including the global context) resolves nothing. -/
def envOneDb : Option Nat → DbEnv := fun nm =>
  match nm with
  | some 5 => ⟨fun fn => if fn = 10 then some 77 else none, fun _ _ => true,
      fun _ _ => 100⟩
  | _ => ⟨fun _ => none, fun _ _ => false, fun _ _ => 0⟩

/-- A concrete catalog environment: filenode 42 resolves to relation 9,
all forks exist, every fork has 100 blocks. -/
def envRel42 : DbEnv :=
  ⟨fun fn => if fn = 42 then some 9 else none, fun _ _ => true, fun _ _ => 100⟩

/-- A concrete mid-stream reader state: relation 9 resolved for
filenode 42, fork 0 selected, block 10 just fetched, 100 blocks in the
fork, no skips pending. -/
def sC3 : RState := ⟨some 9, false, false, false, 42, 0, 10, 100, []⟩

/-- A concrete mid-stream writer state: save-file 1 open and empty,
all cursors at their initial values, first iteration done. -/
def wC2 : WState := ⟨1, 0, 0, -1, INVB, [], some ⟨none, 1, []⟩, true, true⟩

/-- A concrete buffer of the global database: filenode 7, main fork,
block 10. -/
def bC2 : SavedBuffer := ⟨0, 7, 0, 10⟩

/-- The two buffers continuing the run of `bC2`: blocks 11 and 12 of the
same filenode and fork. -/
def restC2 : List SavedBuffer := [⟨0, 7, 0, 11⟩, ⟨0, 7, 0, 12⟩]

/-! ### The restore scheduler -/

/-- `BgwHandleStatus` as observed by `GetBackgroundWorkerPid`. -/
inductive WStatus where
  | notYetStarted
  | started
  | stopped
deriving DecidableEq

/-- Scheduler state: the `pendingWorkers` list and the single remembered
`static BackgroundWorkerHandle *last_worker` (modelled by the id it was
registered for; `none` = `NULL`). -/
structure SchedState where
  pendingWorkers : List Nat
  lastWorker : Option Nat
deriving DecidableEq

/-- The registration tail of `processOnePendingWorker`
(pg_hibernate.c:309-316): try to register a worker for the head of the
pending list; on success remember the handle and pop the list, on
failure log and leave the list untouched. -/
def registerPhase (registerOk : Bool) (s : SchedState) : SchedState × Option Nat :=
  match s.pendingWorkers with
  | [] => (s, none)
  | id :: restIds =>
    if registerOk then (⟨restIds, some id⟩, some id)
    else (s, none)

/-- `processOnePendingWorker` (pg_hibernate.c:277-317), one scheduling
tick.  `status` is what `GetBackgroundWorkerPid` reports for the
remembered worker (consulted only when the slot is occupied);
`registerOk` is whether `RegisterDynamicBackgroundWorker` succeeds.
Returns the new state and the id dispatched this tick, if any. -/
def processOnePendingWorker (parallel : Bool) (status : WStatus)
    (registerOk : Bool) (s : SchedState) : SchedState × Option Nat :=
  if s.pendingWorkers.isEmpty then (s, none)
  else
    match s.lastWorker with
    | none => registerPhase registerOk s
    | some _ =>
      match status with
      | WStatus.started =>
        if parallel then registerPhase registerOk { s with lastWorker := none }
        else (s, none)
      | WStatus.notYetStarted =>
        if parallel then registerPhase registerOk { s with lastWorker := none }
        else (s, none)
      | WStatus.stopped => registerPhase registerOk { s with lastWorker := none }

/-! ### Properties of the comparator -/

/-- Propositional form of `SavedBufferCmp a b ≤ 0`: lexicographic
less-or-equal on the four key fields. -/
def lexLe (a b : SavedBuffer) : Prop :=
  a.database < b.database ∨ (a.database = b.database ∧
    (a.filenode < b.filenode ∨ (a.filenode = b.filenode ∧
      (a.forknum < b.forknum ∨ (a.forknum = b.forknum ∧
        a.blocknum ≤ b.blocknum)))))

theorem bufLE_iff_lexLe (a b : SavedBuffer) : bufLE a b ↔ lexLe a b := by
  cases a
  cases b
  simp only [bufLE, SavedBufferCmp, lexLe]
  split_ifs <;> omega

theorem eq_of_SavedBufferCmp_eq_zero {a b : SavedBuffer}
    (h : SavedBufferCmp a b = 0) : a = b := by
  cases a
  cases b
  simp only [SavedBufferCmp] at h
  split_ifs at h <;> simp only [SavedBuffer.mk.injEq] <;> omega

theorem SavedBufferCmp_self (a : SavedBuffer) : SavedBufferCmp a a = 0 := by
  simp [SavedBufferCmp]

instance : IsTotal SavedBuffer bufLE :=
  ⟨fun a b => by
    rw [bufLE_iff_lexLe, bufLE_iff_lexLe]
    cases a
    cases b
    simp only [lexLe]
    omega⟩

instance : IsTrans SavedBuffer bufLE :=
  ⟨fun a b c hab hbc => by
    rw [bufLE_iff_lexLe] at *
    rcases a with ⟨_, _, _, _⟩
    rcases b with ⟨_, _, _, _⟩
    rcases c with ⟨_, _, _, _⟩
    simp only [lexLe] at *
    omega⟩

instance : IsAntisymm SavedBuffer bufLE :=
  ⟨fun a b hab hba => by
    rw [bufLE_iff_lexLe] at *
    rcases a with ⟨ad, af, ao, ab⟩
    rcases b with ⟨bd, bf, bo, bb⟩
    simp only [lexLe, SavedBuffer.mk.injEq] at *
    omega⟩

theorem sortBufs_perm (l : List SavedBuffer) : List.Perm (sortBufs l) l :=
  List.perm_insertionSort bufLE l

theorem sortBufs_sorted (l : List SavedBuffer) : List.Sorted bufLE (sortBufs l) :=
  List.sorted_insertionSort bufLE l

/-! ### Fuel irrelevance and unfolding -/

theorem writeLoopF_nil (f : Nat) (s : WState) : writeLoopF f s [] = s := by
  cases f <;> rfl

theorem writeLoopF_cons (f : Nat) (s : WState) (b : SavedBuffer)
    (rest : List SavedBuffer) :
    writeLoopF (f + 1) s (b :: rest) =
      writeLoopF f (writeStep s b rest).1 (rest.drop (writeStep s b rest).2) := rfl

theorem writeLoopF_congr :
    ∀ (f1 f2 : Nat) (s : WState) (l : List SavedBuffer),
      l.length ≤ f1 → l.length ≤ f2 → writeLoopF f1 s l = writeLoopF f2 s l := by
  intro f1
  induction f1 with
  | zero =>
    intro f2 s l h1 _
    rw [List.length_eq_zero.mp (Nat.le_zero.mp h1)]
    rw [writeLoopF_nil, writeLoopF_nil]
  | succ f ih =>
    intro f2 s l h1 h2
    match l with
    | [] => rw [writeLoopF_nil, writeLoopF_nil]
    | b :: rest =>
      match f2 with
      | 0 => simp at h2
      | f2' + 1 =>
        rw [writeLoopF_cons, writeLoopF_cons]
        apply ih
        · simp only [List.length_drop]
          simp only [List.length_cons] at h1
          omega
        · simp only [List.length_drop]
          simp only [List.length_cons] at h2
          omega

theorem writeLoop_nil (s : WState) : writeLoop s [] = s := rfl

theorem writeLoop_cons (s : WState) (b : SavedBuffer) (rest : List SavedBuffer) :
    writeLoop s (b :: rest) =
      writeLoop (writeStep s b rest).1 (rest.drop (writeStep s b rest).2) := by
  unfold writeLoop
  rw [show (b :: rest).length = rest.length + 1 from rfl, writeLoopF_cons]
  apply writeLoopF_congr
  · simp only [List.length_drop]
    omega
  · exact Nat.le_refl _

theorem groupRecsF_nil (f : Nat) (fn0 : Nat) (fo0 : Int) :
    groupRecsF f fn0 fo0 [] = [] := by
  cases f <;> rfl

theorem groupRecsF_cons (f : Nat) (fn0 : Nat) (fo0 : Int) (b : SavedBuffer)
    (rest : List SavedBuffer) :
    groupRecsF (f + 1) fn0 fo0 (b :: rest) =
      ((if b.filenode = fn0 then [] else [Record.rel b.filenode]) ++
       (if b.forknum = (if b.filenode = fn0 then fo0 else -1) then []
        else [Record.fork b.forknum]) ++
       [Record.block b.blocknum] ++
       (if runLen b.database b.filenode b.forknum b.blocknum rest = 0 then []
        else [Record.range (runLen b.database b.filenode b.forknum b.blocknum rest)])) ++
      groupRecsF f b.filenode b.forknum
        (rest.drop (runLen b.database b.filenode b.forknum b.blocknum rest)) := rfl

theorem groupRecsF_congr :
    ∀ (f1 f2 : Nat) (fn0 : Nat) (fo0 : Int) (l : List SavedBuffer),
      l.length ≤ f1 → l.length ≤ f2 → groupRecsF f1 fn0 fo0 l = groupRecsF f2 fn0 fo0 l := by
  intro f1
  induction f1 with
  | zero =>
    intro f2 fn0 fo0 l h1 _
    rw [List.length_eq_zero.mp (Nat.le_zero.mp h1)]
    rw [groupRecsF_nil, groupRecsF_nil]
  | succ f ih =>
    intro f2 fn0 fo0 l h1 h2
    match l with
    | [] => rw [groupRecsF_nil, groupRecsF_nil]
    | b :: rest =>
      match f2 with
      | 0 => simp at h2
      | f2' + 1 =>
        rw [groupRecsF_cons, groupRecsF_cons]
        congr 1
        apply ih
        · simp only [List.length_drop]
          simp only [List.length_cons] at h1
          omega
        · simp only [List.length_drop]
          simp only [List.length_cons] at h2
          omega

theorem groupRecs_nil (fn0 : Nat) (fo0 : Int) : groupRecs fn0 fo0 [] = [] := rfl

theorem groupRecs_cons (fn0 : Nat) (fo0 : Int) (b : SavedBuffer)
    (rest : List SavedBuffer) :
    groupRecs fn0 fo0 (b :: rest) =
      ((if b.filenode = fn0 then [] else [Record.rel b.filenode]) ++
       (if b.forknum = (if b.filenode = fn0 then fo0 else -1) then []
        else [Record.fork b.forknum]) ++
       [Record.block b.blocknum] ++
       (if runLen b.database b.filenode b.forknum b.blocknum rest = 0 then []
        else [Record.range (runLen b.database b.filenode b.forknum b.blocknum rest)])) ++
      groupRecs b.filenode b.forknum
        (rest.drop (runLen b.database b.filenode b.forknum b.blocknum rest)) := by
  unfold groupRecs
  rw [show (b :: rest).length = rest.length + 1 from rfl, groupRecsF_cons]
  congr 1
  apply groupRecsF_congr
  · simp only [List.length_drop]
    omega
  · exact Nat.le_refl _

theorem length_dropWhile_le {α : Type} (p : α → Bool) :
    ∀ l : List α, (l.dropWhile p).length ≤ l.length := by
  intro l
  induction l with
  | nil => exact Nat.le_refl _
  | cons x xs ih =>
    rw [List.dropWhile_cons]
    split
    · exact Nat.le_trans ih (Nat.le_succ _)
    · exact Nat.le_refl _

theorem buildFilesAuxF_nil (f cnt : Nat) : buildFilesAuxF f cnt [] = [] := by
  cases f <;> rfl

theorem buildFilesAuxF_cons (f cnt : Nat) (b : SavedBuffer) (rest : List SavedBuffer) :
    buildFilesAuxF (f + 1) cnt (b :: rest) =
      ⟨some b.database, cnt + 1,
        groupRecs 0 (-1) ((b :: rest).takeWhile (fun x => x.database = b.database))⟩ ::
      buildFilesAuxF f (cnt + 1)
        ((b :: rest).dropWhile (fun x => x.database = b.database)) := rfl

theorem buildFilesAuxF_congr :
    ∀ (f1 f2 cnt : Nat) (l : List SavedBuffer),
      l.length ≤ f1 → l.length ≤ f2 → buildFilesAuxF f1 cnt l = buildFilesAuxF f2 cnt l := by
  intro f1
  induction f1 with
  | zero =>
    intro f2 cnt l h1 _
    rw [List.length_eq_zero.mp (Nat.le_zero.mp h1)]
    rw [buildFilesAuxF_nil, buildFilesAuxF_nil]
  | succ f ih =>
    intro f2 cnt l h1 h2
    match l with
    | [] => rw [buildFilesAuxF_nil, buildFilesAuxF_nil]
    | b :: rest =>
      match f2 with
      | 0 => simp at h2
      | f2' + 1 =>
        rw [buildFilesAuxF_cons, buildFilesAuxF_cons]
        congr 1
        have hd : (b :: rest).dropWhile (fun x => x.database = b.database) =
            rest.dropWhile (fun x => x.database = b.database) := by
          rw [List.dropWhile_cons]
          simp
        rw [hd]
        apply ih
        · have := length_dropWhile_le
            (fun x : SavedBuffer => decide (x.database = b.database)) rest
          simp only [List.length_cons] at h1
          omega
        · have := length_dropWhile_le
            (fun x : SavedBuffer => decide (x.database = b.database)) rest
          simp only [List.length_cons] at h2
          omega

theorem buildFilesAux_nil (cnt : Nat) : buildFilesAux cnt [] = [] := rfl

theorem buildFilesAux_cons (cnt : Nat) (b : SavedBuffer) (rest : List SavedBuffer) :
    buildFilesAux cnt (b :: rest) =
      ⟨some b.database, cnt + 1,
        groupRecs 0 (-1) ((b :: rest).takeWhile (fun x => x.database = b.database))⟩ ::
      buildFilesAux (cnt + 1)
        ((b :: rest).dropWhile (fun x => x.database = b.database)) := by
  unfold buildFilesAux
  rw [show (b :: rest).length = rest.length + 1 from rfl, buildFilesAuxF_cons]
  congr 1
  apply buildFilesAuxF_congr
  · have hd : (b :: rest).dropWhile (fun x => x.database = b.database) =
        rest.dropWhile (fun x => x.database = b.database) := by
      rw [List.dropWhile_cons]
      simp
    rw [hd]
    exact length_dropWhile_le _ rest
  · exact Nat.le_refl _

/-! ### Run-length lemmas -/

theorem runLen_le_length (db fn : Nat) (fo : Int) :
    ∀ (pb : Nat) (l : List SavedBuffer), runLen db fn fo pb l ≤ l.length := by
  intro pb l
  induction l generalizing pb with
  | nil => exact Nat.le_refl _
  | cons t rest ih =>
    rw [runLen]
    split
    · exact Nat.succ_le_succ (ih _)
    · exact Nat.zero_le _

theorem range'_cons (a n : Nat) : List.range' a (n + 1) = a :: List.range' (a + 1) n := rfl

theorem SavedBuffer_eq_of_fields {t : SavedBuffer} {db fn : Nat} {fo : Int} {bn : Nat}
    (h1 : t.database = db) (h2 : t.filenode = fn) (h3 : t.forknum = fo)
    (h4 : t.blocknum = bn) : t = ⟨db, fn, fo, bn⟩ := by
  cases t
  simp only [SavedBuffer.mk.injEq]
  exact ⟨h1, h2, h3, h4⟩

/-- The buffers consumed by a run are exactly the strictly consecutive
blocks of the same (database, filenode, forknum). -/
theorem runLen_take (db fn : Nat) (fo : Int) :
    ∀ (l : List SavedBuffer) (pb : Nat),
      l.take (runLen db fn fo pb l) =
        (List.range' (pb + 1) (runLen db fn fo pb l)).map
          (fun bl => (⟨db, fn, fo, bl⟩ : SavedBuffer)) := by
  intro l
  induction l with
  | nil => intro pb; rfl
  | cons t rest ih =>
    intro pb
    rw [runLen]
    split
    · rename_i hc
      obtain ⟨h1, h2, h3, h4⟩ := hc
      have ht : t = ⟨db, fn, fo, pb + 1⟩ := SavedBuffer_eq_of_fields h1 h2 h3 h4
      rw [List.take_succ_cons, range'_cons, List.map_cons, ht, ih (pb + 1)]
    · rfl

theorem runLen_mem (db fn : Nat) (fo : Int) :
    ∀ (l : List SavedBuffer) (pb : Nat), 0 < runLen db fn fo pb l →
      (⟨db, fn, fo, pb + runLen db fn fo pb l⟩ : SavedBuffer) ∈ l := by
  intro l
  induction l with
  | nil => intro pb h; exact absurd h (by simp [runLen])
  | cons t rest ih =>
    intro pb h
    rw [runLen] at h ⊢
    by_cases hc : t.database = db ∧ t.filenode = fn ∧ t.forknum = fo ∧
        t.blocknum = pb + 1
    · rw [if_pos hc] at h ⊢
      obtain ⟨h1, h2, h3, h4⟩ := hc
      by_cases hz : 0 < runLen db fn fo (pb + 1) rest
      · rw [List.mem_cons]
        right
        have harr : pb + (runLen db fn fo (pb + 1) rest + 1) =
            pb + 1 + runLen db fn fo (pb + 1) rest := by omega
        rw [harr]
        exact ih (pb + 1) hz
      · have hz0 : runLen db fn fo (pb + 1) rest = 0 := by omega
        rw [hz0]
        rw [List.mem_cons]
        left
        have ht : t = ⟨db, fn, fo, pb + 1⟩ := SavedBuffer_eq_of_fields h1 h2 h3 h4
        rw [ht]
    · rw [if_neg hc] at h
      exact absurd h (by omega)

/-- Truncating the list after a point whose head is from another
database does not change the run length. -/
theorem runLen_append (db fn : Nat) (fo : Int) :
    ∀ (xs ys : List SavedBuffer) (pb : Nat),
      (∀ y, ys.head? = some y → y.database ≠ db) →
      runLen db fn fo pb (xs ++ ys) = runLen db fn fo pb xs := by
  intro xs
  induction xs with
  | nil =>
    intro ys pb h
    match ys with
    | [] => rfl
    | y :: ys' =>
      rw [List.nil_append, runLen, runLen]
      rw [if_neg]
      intro hc
      exact h y rfl hc.1
  | cons x xs' ih =>
    intro ys pb h
    rw [List.cons_append, runLen, runLen]
    split
    · rw [ih ys _ h]
    · rfl

/-! ### takeWhile / dropWhile / drop interplay -/

theorem head_dropWhile_not {α : Type} (p : α → Bool) :
    ∀ (l : List α) (y : α), (l.dropWhile p).head? = some y → p y = false := by
  intro l
  induction l with
  | nil => intro y h; exact absurd h (by simp)
  | cons x xs ih =>
    intro y h
    rw [List.dropWhile_cons] at h
    split at h
    · exact ih y h
    · rename_i hp
      simp only [List.head?_cons, Option.some.injEq] at h
      subst h
      simpa using hp

theorem takeWhile_drop_of_take {α : Type} (p : α → Bool) :
    ∀ (n : Nat) (l : List α), (∀ x ∈ l.take n, p x) →
      (l.drop n).takeWhile p = (l.takeWhile p).drop n := by
  intro n
  induction n with
  | zero => intro l _; rfl
  | succ m ih =>
    intro l h
    match l with
    | [] => rfl
    | x :: xs =>
      have hp : p x := h x (by simp)
      rw [List.drop_succ_cons, List.takeWhile_cons, if_pos hp, List.drop_succ_cons]
      apply ih
      intro z hz
      exact h z (by rw [List.take_succ_cons]; exact List.mem_cons_of_mem _ hz)

theorem dropWhile_drop_of_take {α : Type} (p : α → Bool) :
    ∀ (n : Nat) (l : List α), (∀ x ∈ l.take n, p x) →
      (l.drop n).dropWhile p = l.dropWhile p := by
  intro n
  induction n with
  | zero => intro l _; rfl
  | succ m ih =>
    intro l h
    match l with
    | [] => rfl
    | x :: xs =>
      have hp : p x := h x (by simp)
      rw [List.drop_succ_cons, List.dropWhile_cons, if_pos hp]
      apply ih
      intro z hz
      exact h z (by rw [List.take_succ_cons]; exact List.mem_cons_of_mem _ hz)

/-! ### `lookahead` equals `runLen` when no `uint32` wrap can occur -/

theorem lookahead_eq_runLen_aux (db fn : Nat) (fo : Int) :
    ∀ (l : List SavedBuffer) (pb rc : Nat),
      pb + rc ≤ 4294967294 → (∀ x ∈ l, x.blocknum ≤ 4294967294) →
      lookahead db fn fo pb rc l = rc + runLen db fn fo (pb + rc) l := by
  intro l
  induction l with
  | nil => intro pb rc _ _; rfl
  | cons t rest ih =>
    intro pb rc hb hv
    rw [lookahead, runLen]
    have hmod : (pb + rc + 1) % W32 = pb + rc + 1 :=
      Nat.mod_eq_of_lt (by unfold W32; omega)
    rw [hmod]
    split
    · rename_i hc
      obtain ⟨h1, h2, h3, h4⟩ := hc
      have hbt : t.blocknum ≤ 4294967294 := hv t (by simp)
      have hb' : pb + (rc + 1) ≤ 4294967294 := by omega
      rw [ih pb (rc + 1) hb' (fun x hx => hv x (List.mem_cons_of_mem _ hx))]
      have harr : pb + (rc + 1) = pb + rc + 1 := by omega
      rw [harr]
      omega
    · omega

theorem lookahead_eq_runLen (db fn : Nat) (fo : Int) (pb : Nat)
    (l : List SavedBuffer) (hb : pb ≤ 4294967294)
    (hv : ∀ x ∈ l, x.blocknum ≤ 4294967294) :
    lookahead db fn fo pb 0 l = runLen db fn fo pb l := by
  have := lookahead_eq_runLen_aux db fn fo l pb 0 (by omega) hv
  simpa using this

/-! ### One writer iteration, characterized -/

theorem groupRecs_cons_step (fn0 : Nat) (fo0 : Int) (b : SavedBuffer)
    (rest : List SavedBuffer) :
    groupRecs fn0 fo0 (b :: rest) =
      stepRecs fn0 fo0 b (runLen b.database b.filenode b.forknum b.blocknum rest) ++
      groupRecs b.filenode b.forknum
        (rest.drop (runLen b.database b.filenode b.forknum b.blocknum rest)) := by
  rw [groupRecs_cons]
  rfl

theorem writeStepRecs_eq (s : WState) (b : SavedBuffer) (rest : List SavedBuffer)
    (F : SFile) (hcur : s.curFile = some F)
    (hdb : s.prev_database = b.database)
    (hfo : 0 ≤ b.forknum)
    (hbn : b.blocknum ≤ 4294967294)
    (hval : ∀ x ∈ rest, x.blocknum ≤ 4294967294) :
    writeStepRecs s b rest =
      ({ s with
         curFile := some ⟨F.name, F.filenum,
           F.records ++ stepRecs s.prev_filenode s.prev_forknum b
             (runLen b.database b.filenode b.forknum b.blocknum rest)⟩
         prev_filenode := b.filenode
         prev_forknum := b.forknum
         prev_blocknum := b.blocknum },
       runLen b.database b.filenode b.forknum b.blocknum rest) := by
  obtain ⟨cnt, pdb, pfn, pfo, pbl, dfs, cf, fd, ak⟩ := s
  simp only at hcur hdb
  subst hcur
  subst hdb
  have hla : lookahead b.database b.filenode b.forknum b.blocknum 0 rest
      = runLen b.database b.filenode b.forknum b.blocknum rest :=
    lookahead_eq_runLen _ _ _ _ rest hbn hval
  have hnofo : ¬(b.forknum = (-1 : Int)) := by omega
  by_cases h1 : b.filenode = pfn
  · by_cases h2 : b.forknum = pfo
    · simp only [h1, h2] at hla
      simp [writeStepRecs, emitRec, stepRecs, h1, h2, hla]
      by_cases h3 : runLen b.database pfn pfo b.blocknum rest = 0 <;> simp [h3]
    · simp only [h1] at hla
      simp [writeStepRecs, emitRec, stepRecs, h1, h2, hnofo, hla]
      by_cases h3 : runLen b.database pfn b.forknum b.blocknum rest = 0 <;> simp [h3]
  · simp [writeStepRecs, emitRec, stepRecs, h1, hnofo, hla]
    by_cases h3 : runLen b.database b.filenode b.forknum b.blocknum rest = 0 <;> simp [h3]

theorem applyFirst_of_firstDone (s : WState) (b : SavedBuffer)
    (h : s.firstDone = true) : applyFirst s b = s := by
  unfold applyFirst
  rw [if_pos h]

theorem writeStep_same_db (s : WState) (b : SavedBuffer) (rest : List SavedBuffer)
    (hfd : s.firstDone = true) (hdb : b.database = s.prev_database) :
    writeStep s b rest = writeStepRecs s b rest := by
  unfold writeStep
  rw [applyFirst_of_firstDone s b hfd]
  unfold applyDbChange
  rw [if_pos hdb]

theorem writeStep_db_change (s : WState) (b : SavedBuffer) (rest : List SavedBuffer)
    (F : SFile) (hfd : s.firstDone = true) (hcur : s.curFile = some F)
    (hdb : ¬ b.database = s.prev_database) :
    writeStep s b rest = writeStepRecs
      { s with
        database_counter := s.database_counter + 1
        doneFiles := s.doneFiles ++ [F]
        curFile := some ⟨some b.database, s.database_counter + 1, []⟩
        prev_database := b.database
        prev_filenode := 0
        prev_forknum := -1
        prev_blocknum := INVB } b rest := by
  unfold writeStep
  rw [applyFirst_of_firstDone s b hfd]
  unfold applyDbChange
  rw [if_neg hdb, hcur]

theorem take_run_db (b : SavedBuffer) (rest : List SavedBuffer) :
    ∀ x ∈ rest.take (runLen b.database b.filenode b.forknum b.blocknum rest),
      x.database = b.database := by
  intro x hx
  rw [runLen_take] at hx
  rw [List.mem_map] at hx
  obtain ⟨bl, _, hx2⟩ := hx
  rw [← hx2]

theorem runLen_restrict (b : SavedBuffer) (rest : List SavedBuffer) (d : Nat)
    (hd : b.database = d) :
    runLen b.database b.filenode b.forknum b.blocknum rest =
      runLen b.database b.filenode b.forknum b.blocknum
        (rest.takeWhile (fun x => x.database = d)) := by
  conv_lhs => rw [← List.takeWhile_append_dropWhile
    (p := fun x : SavedBuffer => decide (x.database = d)) (l := rest)]
  apply runLen_append
  intro y hy
  have h2 := head_dropWhile_not _ rest y hy
  simp only [decide_eq_false_iff_not] at h2
  rw [hd]
  exact h2

theorem drop_run_takeWhile (b : SavedBuffer) (rest : List SavedBuffer) (d : Nat)
    (hd : b.database = d) :
    (rest.drop (runLen b.database b.filenode b.forknum b.blocknum rest)).takeWhile
        (fun x => x.database = d) =
      (rest.takeWhile (fun x => x.database = d)).drop
        (runLen b.database b.filenode b.forknum b.blocknum rest) := by
  apply takeWhile_drop_of_take
  intro x hx
  have := take_run_db b rest x hx
  simp [this, hd]

theorem drop_run_dropWhile (b : SavedBuffer) (rest : List SavedBuffer) (d : Nat)
    (hd : b.database = d) :
    (rest.drop (runLen b.database b.filenode b.forknum b.blocknum rest)).dropWhile
        (fun x => x.database = d) =
      rest.dropWhile (fun x => x.database = d) := by
  apply dropWhile_drop_of_take
  intro x hx
  have := take_run_db b rest x hx
  simp [this, hd]

theorem writeLoop_master :
    ∀ (n : Nat) (l : List SavedBuffer) (s : WState) (F : SFile),
      l.length ≤ n → ValidL l → s.firstDone = true → s.curFile = some F →
      finishW (writeLoop s l) =
        (s.doneFiles ++
          ⟨F.name, F.filenum, F.records ++
            groupRecs s.prev_filenode s.prev_forknum
              (l.takeWhile (fun x => x.database = s.prev_database))⟩ ::
          buildFilesAux s.database_counter
            (l.dropWhile (fun x => x.database = s.prev_database)),
         s.assertOk) := by
  intro n
  induction n with
  | zero =>
    intro l s F hn hv hfd hcur
    obtain rfl := List.length_eq_zero.mp (Nat.le_zero.mp hn)
    simp [writeLoop_nil, finishW, closeFiles, hcur, groupRecs_nil, buildFilesAux_nil]
  | succ m ih =>
    intro l s F hn hv hfd hcur
    match l with
    | [] =>
      simp [writeLoop_nil, finishW, closeFiles, hcur, groupRecs_nil, buildFilesAux_nil]
    | b :: rest =>
      have hvb : ValidBuf b := hv b (List.mem_cons_self _ _)
      obtain ⟨hfn0, hfo, hbn⟩ := hvb
      have hvrest : ∀ x ∈ rest, x.blocknum ≤ 4294967294 :=
        fun x hx => (hv x (List.mem_cons_of_mem _ hx)).2.2
      have hlen : ∀ k : Nat, (rest.drop k).length ≤ m := by
        intro k
        simp only [List.length_drop]
        simp only [List.length_cons] at hn
        omega
      have hvdrop : ∀ k : Nat, ValidL (rest.drop k) :=
        fun k x hx => hv x (List.mem_cons_of_mem _ (List.drop_subset _ _ hx))
      by_cases hdb : b.database = s.prev_database
      · rw [writeLoop_cons, writeStep_same_db s b rest hfd hdb,
            writeStepRecs_eq s b rest F hcur hdb.symm hfo hbn hvrest]
        refine Eq.trans (ih _ _ _ (hlen _) (hvdrop _) hfd rfl) ?_
        have htw : (b :: rest).takeWhile (fun x => decide (x.database = s.prev_database)) =
            b :: rest.takeWhile (fun x => decide (x.database = s.prev_database)) :=
          List.takeWhile_cons_of_pos (by simp [hdb])
        have hdw : (b :: rest).dropWhile (fun x => decide (x.database = s.prev_database)) =
            rest.dropWhile (fun x => decide (x.database = s.prev_database)) :=
          List.dropWhile_cons_of_pos (by simp [hdb])
        simp only [htw, hdw, groupRecs_cons_step]
        rw [← runLen_restrict b rest s.prev_database hdb,
            ← drop_run_takeWhile b rest s.prev_database hdb,
            ← drop_run_dropWhile b rest s.prev_database hdb]
        simp [List.append_assoc]
      · rw [writeLoop_cons, writeStep_db_change s b rest F hfd hcur hdb,
            writeStepRecs_eq _ b rest ⟨some b.database, s.database_counter + 1, []⟩
              rfl rfl hfo hbn hvrest]
        refine Eq.trans (ih _ _ _ (hlen _) (hvdrop _) hfd rfl) ?_
        have htw : (b :: rest).takeWhile (fun x => decide (x.database = s.prev_database)) =
            [] :=
          List.takeWhile_cons_of_neg (by simp [hdb])
        have hdw : (b :: rest).dropWhile (fun x => decide (x.database = s.prev_database)) =
            b :: rest :=
          List.dropWhile_cons_of_neg (by simp [hdb])
        have htw2 : (b :: rest).takeWhile (fun x => decide (x.database = b.database)) =
            b :: rest.takeWhile (fun x => decide (x.database = b.database)) :=
          List.takeWhile_cons_of_pos (by simp)
        have hdw2 : (b :: rest).dropWhile (fun x => decide (x.database = b.database)) =
            rest.dropWhile (fun x => decide (x.database = b.database)) :=
          List.dropWhile_cons_of_pos (by simp)
        simp only [htw, hdw, groupRecs_nil, buildFilesAux_cons, htw2, hdw2,
          groupRecs_cons_step]
        rw [← runLen_restrict b rest b.database rfl,
            ← drop_run_takeWhile b rest b.database rfl,
            ← drop_run_dropWhile b rest b.database rfl]
        simp [List.append_assoc]


theorem applyFirst_initW (b : SavedBuffer) :
    applyFirst initW b =
      ⟨1, b.database, 0, -1, INVB, [], some ⟨none, 1, []⟩, true,
        decide (b.database = 0)⟩ := by
  unfold applyFirst initW
  simp

theorem writeLoop_init_cons (b : SavedBuffer) (rest : List SavedBuffer) :
    writeLoop initW (b :: rest) = writeLoop (applyFirst initW b) (b :: rest) := by
  rw [writeLoop_cons, writeLoop_cons]
  have hstep : writeStep initW b rest = writeStep (applyFirst initW b) b rest := by
    unfold writeStep
    rw [applyFirst_of_firstDone (applyFirst initW b) b (by rw [applyFirst_initW])]
  rw [hstep]

theorem ValidL_sortBufs (l : List SavedBuffer) (h : ValidL l) : ValidL (sortBufs l) :=
  fun x hx => h x ((sortBufs_perm l).mem_iff.mp hx)

/-- Full characterization of the writer's output: on a valid scanned
collection, `SaveBuffers` produces exactly the `buildFiles`
decomposition of the sorted list, and its `Assert`s hold exactly when
the collection is nonempty and the first sorted buffer is global. -/
theorem SaveBuffers_eq (l : List SavedBuffer) (hv : ValidL l) :
    SaveBuffers l = (buildFiles (sortBufs l),
      match sortBufs l with
      | [] => false
      | b :: _ => decide (b.database = 0)) := by
  unfold SaveBuffers
  have hv2 : ValidL (sortBufs l) := ValidL_sortBufs l hv
  cases hsb : sortBufs l with
  | nil => rfl
  | cons b rest =>
    rw [hsb] at hv2
    rw [writeLoop_init_cons, applyFirst_initW]
    rw [writeLoop_master (b :: rest).length (b :: rest) _ ⟨none, 1, []⟩ (Nat.le_refl _)
        hv2 rfl rfl]
    simp [buildFiles]

/-! ### Reader loop plumbing -/

theorem readLoop_nil (env : DbEnv) (stop : Option Nat) (s : RState) (i : Nat) :
    readLoop env stop s i [] = Except.ok s := rfl

theorem readLoop_cons_none (env : DbEnv) (s : RState) (r : Record)
    (rest : List Record) (i : Nat) :
    readLoop env none s i (r :: rest) =
      match readStep1 env s r with
      | Except.ok s2 => readLoop env none s2 (i + 1) rest
      | Except.error e => Except.error e := rfl

theorem readLoop_idx (env : DbEnv) :
    ∀ (l : List Record) (s : RState) (i j : Nat),
      readLoop env none s i l = readLoop env none s j l := by
  intro l
  induction l with
  | nil => intro s i j; rfl
  | cons r rest ih =>
    intro s i j
    rw [readLoop_cons_none, readLoop_cons_none]
    cases readStep1 env s r with
    | error e => rfl
    | ok s2 => exact ih s2 (i + 1) (j + 1)

theorem readLoop_append (env : DbEnv) :
    ∀ (xs ys : List Record) (s : RState),
      readLoop env none s 0 (xs ++ ys) =
        match readLoop env none s 0 xs with
        | Except.ok s2 => readLoop env none s2 0 ys
        | Except.error e => Except.error e := by
  intro xs
  induction xs with
  | nil => intro ys s; rfl
  | cons r xs2 ih =>
    intro ys s
    rw [List.cons_append, readLoop_cons_none, readLoop_cons_none]
    cases readStep1 env s r with
    | error e => rfl
    | ok s2 =>
      dsimp only
      rw [readLoop_idx env (xs2 ++ ys) s2 (0 + 1) 0, readLoop_idx env xs2 s2 (0 + 1) 0]
      exact ih ys s2

/-! ### filter / takeWhile on ranges -/

theorem filter_map_comm {α β : Type} (f : α → β) (p : β → Bool) :
    ∀ l : List α, (l.map f).filter p = (l.filter (fun x => p (f x))).map f := by
  intro l
  induction l with
  | nil => rfl
  | cons x xs ih =>
    rw [List.map_cons, List.filter_cons, List.filter_cons]
    by_cases h : p (f x)
    · simp [h, ih]
    · simp [h, ih]

theorem filter_range'_nil (N : Nat) :
    ∀ (n a : Nat), N ≤ a →
      (List.range' a n).filter (fun x => decide (x < N)) = [] := by
  intro n
  induction n with
  | zero => intro a _; rfl
  | succ m ih =>
    intro a h
    rw [range'_cons, List.filter_cons]
    have h2 : ¬(a < N) := by omega
    simp only [decide_eq_false h2, Bool.false_eq_true, if_false]
    exact ih (a + 1) (by omega)

theorem filter_range'_eq_takeWhile (N : Nat) :
    ∀ (n a : Nat),
      (List.range' a n).filter (fun x => decide (x < N)) =
        (List.range' a n).takeWhile (fun x => decide (x < N)) := by
  intro n
  induction n with
  | zero => intro a; rfl
  | succ m ih =>
    intro a
    rw [range'_cons, List.filter_cons, List.takeWhile_cons]
    by_cases h : a < N
    · simp only [decide_eq_true (by exact h : a < N), if_true, ih (a + 1)]
    · simp only [decide_eq_false h, Bool.false_eq_true, if_false]
      exact filter_range'_nil N m (a + 1) (by omega)

/-! ### Reader-state invariant along a writer-produced stream -/

theorem INV_initR (env : DbEnv) : INV env initR 0 (-1) := by
  unfold INV initR
  refine ⟨rfl, rfl, fun _ => ⟨rfl, rfl, rfl⟩, fun h => absurd rfl h, fun h => absurd rfl h,
    fun h => absurd rfl h⟩

/-- Processing the identity records (`'r'` and/or `'f'`) emitted by one
writer iteration re-establishes the invariant at the new cursors and
issues no fetch. -/
theorem readLoop_idrecs (env : DbEnv) (s : RState) (fn0 : Nat) (fo0 : Int)
    (b : SavedBuffer) (tail : List Record)
    (hINV : INV env s fn0 fo0) (hfn : b.filenode ≠ 0) (hfo : 0 ≤ b.forknum) :
    ∃ s1, readLoop env none s 0
        ((if b.filenode = fn0 then [] else [Record.rel b.filenode]) ++
         ((if b.forknum = (if b.filenode = fn0 then fo0 else -1) then []
           else [Record.fork b.forknum]) ++ tail)) =
      readLoop env none s1 0 tail ∧
      INV env s1 b.filenode b.forknum ∧ s1.fetches = s.fetches := by
  obtain ⟨hrfn, hrfo, hzero, hnz, hfo0, hfork⟩ := hINV
  have hnotm1 : ¬(b.forknum = (-1 : Int)) := by omega
  by_cases h1 : b.filenode = fn0
  · -- no 'r' record; the relation context is already b's
    have hfn0 : fn0 ≠ 0 := h1 ▸ hfn
    obtain ⟨hrel, hskip⟩ := hnz hfn0
    by_cases h2 : b.forknum = fo0
    · -- no 'f' record either
      refine ⟨s, ?_, ?_, rfl⟩
      · rw [if_pos h1, if_pos (by rw [if_pos h1]; exact h2), List.nil_append,
          List.nil_append]
      · subst h1 h2
        exact ⟨hrfn, hrfo, hzero, hnz, hfo0, hfork⟩
    · -- an 'f' record
      rw [if_pos h1, if_neg (by rw [if_pos h1]; exact h2), List.nil_append,
        List.singleton_append, readLoop_cons_none]
      cases hR : env.relOid b.filenode with
      | none =>
        have hRf : env.relOid fn0 = none := by rw [← h1]; exact hR
        have hskipT : s.skip_relation = true := by rw [hskip, hRf]; rfl
        simp only [readStep1, hskipT, if_true]
        refine ⟨_, readLoop_idx env tail _ 1 0, ?_, rfl⟩
        refine ⟨hrfn.trans h1.symm, rfl, fun hz => absurd hz hfn, fun _ => ?_,
          fun _ => hfn, fun _ hsk _ _ => ?_⟩
        · exact ⟨by rw [hrel, hRf, hR], by rw [hR]; rfl⟩
        · exact absurd hsk (by simp)
      | some r =>
        have hRf : env.relOid fn0 = some r := by rw [← h1]; exact hR
        have hskipF : s.skip_relation = false := by rw [hskip, hRf]; rfl
        have hrelr : s.rel = some r := by rw [hrel, hRf]
        simp only [readStep1, hskipF, Bool.false_eq_true, if_false, hrelr]
        by_cases hF : env.forkExists r b.forknum
        · simp only [hF, if_true]
          refine ⟨_, readLoop_idx env tail _ 1 0, ?_, rfl⟩
          refine ⟨hrfn.trans h1.symm, rfl, fun hz => absurd hz hfn,
            fun _ => ⟨by rw [hR], by rw [hR]; rfl⟩,
            fun _ => hfn, fun _ _ r2 hr2 => ?_⟩
          rw [hR] at hr2
          obtain rfl := Option.some_inj.mp hr2
          simp [hF]
        · simp only [hF, Bool.false_eq_true, if_false]
          refine ⟨_, readLoop_idx env tail _ 1 0, ?_, rfl⟩
          refine ⟨hrfn.trans h1.symm, rfl, fun hz => absurd hz hfn,
            fun _ => ⟨by rw [hR], by rw [hR]; rfl⟩,
            fun _ => hfn, fun _ _ r2 hr2 => ?_⟩
          rw [hR] at hr2
          obtain rfl := Option.some_inj.mp hr2
          simp [hF]
  · -- an 'r' record, then (since the writer reset the fork cursor) an 'f'
    rw [if_neg h1, if_neg (by rw [if_neg h1]; exact hnotm1), List.singleton_append,
      List.singleton_append, readLoop_cons_none]
    cases hR : env.relOid b.filenode with
    | none =>
      simp only [readStep1, hR]
      rw [readLoop_cons_none]
      simp only [readStep1, if_true]
      refine ⟨_, readLoop_idx env tail _ 2 0, ?_, rfl⟩
      refine ⟨rfl, rfl, fun hz => absurd hz hfn, fun _ => ⟨by rw [hR], by rw [hR]; rfl⟩,
        fun _ => hfn, fun _ hsk => absurd hsk (by simp)⟩
    | some r =>
      simp only [readStep1, hR]
      rw [readLoop_cons_none]
      simp only [readStep1, Bool.false_eq_true, if_false]
      by_cases hF : env.forkExists r b.forknum
      · simp only [hF, if_true]
        refine ⟨_, readLoop_idx env tail _ 2 0, ?_, rfl⟩
        refine ⟨rfl, rfl, fun hz => absurd hz hfn, fun _ => ⟨by rw [hR], by rw [hR]; rfl⟩,
          fun _ => hfn, fun _ _ r2 hr2 => ?_⟩
        rw [hR] at hr2
        obtain rfl := Option.some_inj.mp hr2
        simp [hF]
      · simp only [hF, Bool.false_eq_true, if_false]
        refine ⟨_, readLoop_idx env tail _ 2 0, ?_, rfl⟩
        refine ⟨rfl, rfl, fun hz => absurd hz hfn, fun _ => ⟨by rw [hR], by rw [hR]; rfl⟩,
          fun _ => hfn, fun _ _ r2 hr2 => ?_⟩
        rw [hR] at hr2
        obtain rfl := Option.some_inj.mp hr2
        simp [hF]

/-- The invariant ignores `record_blocknum`, `skip_block` and
`fetches`, so any update of only those fields preserves it. -/
theorem INV_upd (env : DbEnv) (s : RState) (fn0 : Nat) (fo0 : Int)
    (hINV : INV env s fn0 fo0) (bl : Nat) (sb : Bool) (fs : List RFetch) :
    INV env { s with record_blocknum := bl, skip_block := sb, fetches := fs } fn0 fo0 :=
  hINV

/-- Processing the `'b'` record and optional `'N'` record emitted by one
writer iteration fetches exactly the fresh blocks of the run. -/
theorem readLoop_blockrange (env : DbEnv) (s : RState) (b : SavedBuffer) (rc : Nat)
    (tail : List Record)
    (hINV : INV env s b.filenode b.forknum)
    (hfn : b.filenode ≠ 0) (hfo : 0 ≤ b.forknum)
    (hbn : b.blocknum ≤ 4294967294) (hrun : b.blocknum + rc ≤ 4294967294) :
    ∃ s2, readLoop env none s 0
        (Record.block b.blocknum ::
          ((if rc = 0 then [] else [Record.range rc]) ++ tail)) =
      readLoop env none s2 0 tail ∧
      INV env s2 b.filenode b.forknum ∧
      s2.fetches = s.fetches ++
        ((key3 b :: (List.range' (b.blocknum + 1) rc).map
            (fun bl => ((b.filenode, b.forknum, bl) : RFetch))).filter
          (fun f => freshT env f)) := by
  obtain ⟨hrfn, hrfo, hzero, hnz, hfo0, hfork⟩ := hINV
  have hnotm1 : ¬(b.forknum = (-1 : Int)) := by omega
  obtain ⟨hrel, hskip⟩ := hnz hfn
  have hcond1 : ¬(s.record_forknum = -1) := by rw [hrfo]; exact hnotm1
  have hINVfull : INV env s b.filenode b.forknum :=
    ⟨hrfn, hrfo, hzero, fun _ => ⟨hrel, hskip⟩, hfo0, hfork⟩
  have hbneq : ¬(b.blocknum = INVB) := by unfold INVB; omega
  cases hR : env.relOid b.filenode with
  | none =>
    have hskipT : s.skip_relation = true := by rw [hskip, hR]; rfl
    have hfreshF : ∀ bl : Nat,
        freshT env ((b.filenode, b.forknum, bl) : RFetch) = false := by
      intro bl
      unfold freshT
      rw [show ((b.filenode, b.forknum, bl) : RFetch).1 = b.filenode from rfl, hR]
    have hexp : ((key3 b :: (List.range' (b.blocknum + 1) rc).map
        (fun bl => ((b.filenode, b.forknum, bl) : RFetch))).filter
          (fun f => freshT env f)) = [] := by
      rw [List.filter_cons, filter_map_comm]
      simp [hfreshF, key3]
    have hcond2 : (s.skip_relation || s.skip_fork) = true := by rw [hskipT]; rfl
    rw [readLoop_cons_none]
    simp only [readStep1]
    rw [if_neg hcond1, if_pos hcond2]
    try dsimp only
    by_cases hrc : rc = 0
    · rw [if_pos hrc, List.nil_append]
      refine ⟨_, readLoop_idx env tail _ 1 0, INV_upd env s _ _ hINVfull _ _ _, ?_⟩
      rw [hexp, List.append_nil]
    · rw [if_neg hrc, List.singleton_append, readLoop_cons_none]
      simp only [readStep1]
      try dsimp only
      rw [if_neg hbneq,
        if_pos (show (s.skip_relation || s.skip_fork || s.skip_block) = true by
          rw [hskipT]; rfl)]
      refine ⟨_, readLoop_idx env tail _ 2 0, INV_upd env s _ _ hINVfull _ _ _, ?_⟩
      rw [hexp, List.append_nil]
  | some r =>
    have hskipF : s.skip_relation = false := by rw [hskip, hR]; rfl
    have hrelr : s.rel = some r := by rw [hrel, hR]
    obtain ⟨hsf, hnb⟩ := hfork hnotm1 hskipF r hR
    by_cases hF : env.forkExists r b.forknum
    · -- fork exists: nblocks is live
      have hsfF : s.skip_fork = false := by rw [hsf, hF]; rfl
      have hnbN : s.nblocks = env.nblocksF r b.forknum := by rw [hnb, if_pos hF]
      have hfreshN : ∀ bl : Nat, freshT env ((b.filenode, b.forknum, bl) : RFetch) =
          decide (bl < env.nblocksF r b.forknum) := by
        intro bl
        unfold freshT
        rw [show ((b.filenode, b.forknum, bl) : RFetch).1 = b.filenode from rfl, hR]
        try dsimp only
        rw [hF]
        simp
      have hcond2 : ¬((s.skip_relation || s.skip_fork) = true) := by
        rw [hskipF, hsfF]
        simp
      rw [readLoop_cons_none]
      simp only [readStep1]
      rw [if_neg hcond1, if_neg hcond2]
      by_cases hNle : s.nblocks ≤ b.blocknum
      · -- the block itself is already beyond the fork size: skip it and the range
        have hexp : ((key3 b :: (List.range' (b.blocknum + 1) rc).map
            (fun bl => ((b.filenode, b.forknum, bl) : RFetch))).filter
              (fun f => freshT env f)) = [] := by
          rw [List.filter_cons, filter_map_comm]
          have hkb : freshT env (key3 b) = false := by
            rw [show key3 b = ((b.filenode, b.forknum, b.blocknum) : RFetch) from rfl,
              hfreshN]
            rw [hnbN] at hNle
            simp
            omega
          simp only [hkb, Bool.false_eq_true, if_false]
          have hall : ∀ bl ∈ List.range' (b.blocknum + 1) rc,
              ¬(freshT env ((b.filenode, b.forknum, bl) : RFetch) = true) := by
            intro bl hbl
            rw [hfreshN]
            rw [List.mem_range'_1] at hbl
            rw [hnbN] at hNle
            simp
            omega
          rw [List.filter_eq_nil_iff.mpr hall]
          rfl
        rw [if_pos hNle]
        try dsimp only
        by_cases hrc : rc = 0
        · rw [if_pos hrc, List.nil_append]
          refine ⟨_, readLoop_idx env tail _ 1 0, INV_upd env s _ _ hINVfull _ _ _, ?_⟩
          rw [hexp, List.append_nil]
        · rw [if_neg hrc, List.singleton_append, readLoop_cons_none]
          simp only [readStep1]
          try dsimp only
          rw [if_neg hbneq,
            if_pos (show (s.skip_relation || s.skip_fork || true) = true by simp)]
          refine ⟨_, readLoop_idx env tail _ 2 0, INV_upd env s _ _ hINVfull _ _ _, ?_⟩
          rw [hexp, List.append_nil]
      · -- the block is fetched
        have hlt : b.blocknum < env.nblocksF r b.forknum := by
          rw [hnbN] at hNle
          omega
        have hkb : freshT env (key3 b) = true := by
          rw [show key3 b = ((b.filenode, b.forknum, b.blocknum) : RFetch) from rfl,
            hfreshN]
          simp
          omega
        rw [if_neg hNle]
        try dsimp only
        by_cases hrc : rc = 0
        · rw [if_pos hrc, List.nil_append]
          refine ⟨_, readLoop_idx env tail _ 1 0, INV_upd env s _ _ hINVfull _ _ _, ?_⟩
          subst hrc
          rw [List.filter_cons]
          simp only [hkb, if_pos rfl]
          rw [hrfn, hrfo]
          rfl
        · rw [if_neg hrc, List.singleton_append, readLoop_cons_none]
          simp only [readStep1]
          try dsimp only
          rw [if_neg hbneq,
            if_neg (show ¬((s.skip_relation || s.skip_fork || false) = true) by
              rw [hskipF, hsfF]; simp)]
          refine ⟨_, readLoop_idx env tail _ 2 0, INV_upd env s _ _ hINVfull _ _ _, ?_⟩
          try dsimp only
          rw [List.filter_cons]
          simp only [hkb, if_pos rfl]
          have hmod : (b.blocknum + rc) % W32 = b.blocknum + rc :=
            Nat.mod_eq_of_lt (by unfold W32; omega)
          have hcount : (b.blocknum + rc) % W32 + 1 - (b.blocknum + 1) = rc := by
            rw [hmod]
            omega
          unfold rangeBlocks
          rw [hcount, ← filter_range'_eq_takeWhile, filter_map_comm]
          have hpt : ∀ bl : Nat, (freshT env ((b.filenode, b.forknum, bl) : RFetch)) =
              decide (bl < s.nblocks) := by
            intro bl
            rw [hfreshN, hnbN]
          rw [hrfn, hrfo]
          simp only [hpt, key3, List.append_assoc, List.singleton_append]
          simp
    · -- fork missing: everything under it is skipped
      have hFf : env.forkExists r b.forknum = false := by
        simp at hF
        exact hF
      have hsfT : s.skip_fork = true := by rw [hsf, hFf]; rfl
      have hfreshF : ∀ bl : Nat,
          freshT env ((b.filenode, b.forknum, bl) : RFetch) = false := by
        intro bl
        unfold freshT
        rw [show ((b.filenode, b.forknum, bl) : RFetch).1 = b.filenode from rfl, hR]
        try dsimp only
        rw [hFf]
        rfl
      have hexp : ((key3 b :: (List.range' (b.blocknum + 1) rc).map
          (fun bl => ((b.filenode, b.forknum, bl) : RFetch))).filter
            (fun f => freshT env f)) = [] := by
        rw [List.filter_cons, filter_map_comm]
        simp [hfreshF, key3]
      have hcond2 : (s.skip_relation || s.skip_fork) = true := by
        rw [hskipF, hsfT]
        rfl
      rw [readLoop_cons_none]
      simp only [readStep1]
      rw [if_neg hcond1, if_pos hcond2]
      try dsimp only
      by_cases hrc : rc = 0
      · rw [if_pos hrc, List.nil_append]
        refine ⟨_, readLoop_idx env tail _ 1 0, INV_upd env s _ _ hINVfull _ _ _, ?_⟩
        rw [hexp, List.append_nil]
      · rw [if_neg hrc, List.singleton_append, readLoop_cons_none]
        simp only [readStep1]
        try dsimp only
        rw [if_neg hbneq,
          if_pos (show (s.skip_relation || s.skip_fork || s.skip_block) = true by
            rw [hskipF, hsfT]; rfl)]
        refine ⟨_, readLoop_idx env tail _ 2 0, INV_upd env s _ _ hINVfull _ _ _, ?_⟩
        rw [hexp, List.append_nil]

/-- Replaying the record stream the writer produced for one database
group fetches exactly the group's fresh pages, in order. -/
theorem readLoop_group (env : DbEnv) :
    ∀ (n : Nat) (g : List SavedBuffer) (fn0 : Nat) (fo0 : Int) (s : RState),
      g.length ≤ n → ValidL g → INV env s fn0 fo0 →
      ∃ s2, readLoop env none s 0 (groupRecs fn0 fo0 g) = Except.ok s2 ∧
        s2.fetches = s.fetches ++ (g.map key3).filter (fun f => freshT env f) := by
  intro n
  induction n with
  | zero =>
    intro g fn0 fo0 s hn hv hINV
    obtain rfl := List.length_eq_zero.mp (Nat.le_zero.mp hn)
    exact ⟨s, rfl, by simp⟩
  | succ m ih =>
    intro g fn0 fo0 s hn hv hINV
    match g with
    | [] => exact ⟨s, rfl, by simp⟩
    | b :: rest =>
      obtain ⟨hfn, hfo, hbn⟩ := hv b (List.mem_cons_self _ _)
      set rc := runLen b.database b.filenode b.forknum b.blocknum rest with hrc
      have hrun : b.blocknum + rc ≤ 4294967294 := by
        by_cases h : rc = 0
        · omega
        · have hmem := runLen_mem b.database b.filenode b.forknum rest b.blocknum
            (by rw [← hrc]; omega)
          have hvm := (hv _ (List.mem_cons_of_mem _ hmem)).2.2
          simp only at hvm
          rw [← hrc] at hvm
          exact hvm
      rw [groupRecs_cons_step, ← hrc]
      simp only [stepRecs, List.append_assoc, List.singleton_append, List.cons_append,
        List.nil_append]
      obtain ⟨s1, heq1, hINV1, hfet1⟩ := readLoop_idrecs env s fn0 fo0 b
        (Record.block b.blocknum ::
          ((if rc = 0 then [] else [Record.range rc]) ++
           groupRecs b.filenode b.forknum (rest.drop rc))) hINV hfn hfo
      rw [heq1]
      obtain ⟨s2, heq2, hINV2, hfet2⟩ := readLoop_blockrange env s1 b rc
        (groupRecs b.filenode b.forknum (rest.drop rc)) hINV1 hfn hfo hbn hrun
      rw [heq2]
      obtain ⟨s3, heq3, hfet3⟩ := ih (rest.drop rc) b.filenode b.forknum s2
        (by
          simp only [List.length_drop]
          simp only [List.length_cons] at hn
          omega)
        (fun x hx => hv x (List.mem_cons_of_mem _ (List.drop_subset _ _ hx)))
        hINV2
      refine ⟨s3, heq3, ?_⟩
      rw [hfet3, hfet2, hfet1]
      have htake := runLen_take b.database b.filenode b.forknum rest b.blocknum
      rw [← hrc] at htake
      have hmap2 : List.map key3 (List.take rc rest) =
          List.map (fun bl => ((b.filenode, b.forknum, bl) : RFetch))
            (List.range' (b.blocknum + 1) rc) := by
        rw [htake, List.map_map]
        rfl
      conv_rhs => rw [← List.take_append_drop rc rest]
      rw [List.map_cons, List.map_append, hmap2, ← List.cons_append, List.filter_append]
      simp [key3]

/-- Successful replay of one whole group file. -/
theorem ReadBlocks_groupRecs (env : DbEnv) (g : List SavedBuffer) (hv : ValidL g) :
    ReadBlocks env none (groupRecs 0 (-1) g) =
      Except.ok ⟨(g.map key3).filter (fun f => freshT env f), true⟩ := by
  obtain ⟨s2, heq, hfet⟩ :=
    readLoop_group env g.length g 0 (-1) initR (Nat.le_refl _) hv (INV_initR env)
  unfold ReadBlocks
  rw [heq]
  dsimp only
  rw [hfet]
  rfl

theorem replayAll_cons (env : Option Nat → DbEnv) (F : SFile) (FS : List SFile) :
    replayAll env (F :: FS) =
      (match ReadBlocks (env F.name) none F.records with
       | Except.ok out => out.fetches.map (fun f => (F.name, f))
       | Except.error _ => []) ++ replayAll env FS := rfl

theorem bufLE_database_le {a b : SavedBuffer} (h : bufLE a b) :
    a.database ≤ b.database := by
  rw [bufLE_iff_lexLe] at h
  unfold lexLe at h
  omega

/-- In a sorted list whose entries all have database ≥ d, everything
surviving `dropWhile (database = d)` has database strictly above `d`. -/
theorem dropWhile_db_gt (d : Nat) :
    ∀ l : List SavedBuffer, List.Sorted bufLE l → (∀ x ∈ l, d ≤ x.database) →
      ∀ x ∈ l.dropWhile (fun y => y.database = d), d < x.database := by
  intro l
  induction l with
  | nil => intro _ _ x hx; exact absurd hx (by simp)
  | cons y ys ih =>
    intro hs hge x hx
    rw [List.dropWhile_cons] at hx
    by_cases hy : y.database = d
    · rw [if_pos (by simp [hy])] at hx
      exact ih (List.sorted_cons.mp hs).2 (fun z hz => hge z (List.mem_cons_of_mem _ hz))
        x hx
    · rw [if_neg (by simp [hy])] at hx
      have hyge : d ≤ y.database := hge y (List.mem_cons_self _ _)
      have hygt : d < y.database := by omega
      rcases List.mem_cons.mp hx with rfl | hx2
      · exact hygt
      · have := bufLE_database_le ((List.sorted_cons.mp hs).1 x hx2)
        omega

/-- The tagged replay of one group file equals the tagged fresh entries
of its group, provided every entry of the group belongs to the database
the file is named after. -/
theorem replay_one_group (env : Option Nat → DbEnv) (nm : Option Nat)
    (g : List SavedBuffer)
    (hdb : ∀ x ∈ g, mapName x.database = nm) :
    ((g.map key3).filter (fun f => freshT (env nm) f)).map (fun f => (nm, f)) =
      originalFetches env g := by
  unfold originalFetches
  rw [filter_map_comm]
  rw [List.map_map]
  have h1 : g.filter (fun x => freshT (env nm) (key3 x)) =
      g.filter (fun x => freshT (env (mapName x.database)) (key3 x)) := by
    apply List.filter_congr
    intro x hx
    rw [hdb x hx]
  rw [h1]
  apply List.map_congr_left
  intro x hx
  have := hdb x (List.mem_of_mem_filter hx)
  simp [Function.comp, this]

/-- Replaying the non-global files produced by the writer yields exactly
the fresh entries of the corresponding buffers, each judged and tagged in
its own database. -/
theorem replay_buildFilesAux (env : Option Nat → DbEnv) :
    ∀ (n : Nat) (l : List SavedBuffer) (cnt : Nat),
      l.length ≤ n → ValidL l → List.Sorted bufLE l → (∀ x ∈ l, x.database ≠ 0) →
      (∀ F ∈ buildFilesAux cnt l,
        ∃ out, ReadBlocks (env F.name) none F.records = Except.ok out) ∧
      replayAll env (buildFilesAux cnt l) = originalFetches env l := by
  intro n
  induction n with
  | zero =>
    intro l cnt hn _ _ _
    obtain rfl := List.length_eq_zero.mp (Nat.le_zero.mp hn)
    exact ⟨fun F hF => absurd hF (by simp [buildFilesAux_nil]), rfl⟩
  | succ m ih =>
    intro l cnt hn hv hs hnz
    match l with
    | [] => exact ⟨fun F hF => absurd hF (by simp [buildFilesAux_nil]), rfl⟩
    | b :: rest =>
      rw [buildFilesAux_cons]
      have hsegsub : ∀ x ∈ (b :: rest).takeWhile (fun y => y.database = b.database),
          x ∈ b :: rest := fun x hx => (List.takeWhile_sublist _).subset hx
      have hdwsub : ∀ x ∈ (b :: rest).dropWhile (fun y => y.database = b.database),
          x ∈ b :: rest := fun x hx => (List.dropWhile_sublist _).subset hx
      have hvseg : ValidL ((b :: rest).takeWhile (fun y => y.database = b.database)) :=
        fun x hx => hv x (hsegsub x hx)
      have hro := ReadBlocks_groupRecs (env (some b.database))
        ((b :: rest).takeWhile (fun y => y.database = b.database)) hvseg
      have hdw : (b :: rest).dropWhile (fun y => y.database = b.database) =
          rest.dropWhile (fun y => y.database = b.database) := by
        rw [List.dropWhile_cons]
        simp
      have hlendw : (rest.dropWhile (fun y => y.database = b.database)).length ≤ m := by
        have := length_dropWhile_le
          (fun y : SavedBuffer => decide (y.database = b.database)) rest
        simp only [List.length_cons] at hn
        omega
      obtain ⟨ihok, ihrep⟩ := ih ((b :: rest).dropWhile (fun y => y.database = b.database))
        (cnt + 1) (by rw [hdw]; exact hlendw)
        (fun x hx => hv x (hdwsub x hx))
        (by
          rw [hdw]
          have hsrest : List.Sorted bufLE rest := (List.sorted_cons.mp hs).2
          exact hsrest.sublist (List.dropWhile_sublist _))
        (fun x hx => hnz x (hdwsub x hx))
      constructor
      · intro F hF
        rcases List.mem_cons.mp hF with rfl | hF2
        · exact ⟨_, hro⟩
        · exact ihok F hF2
      · rw [replayAll_cons]
        dsimp only
        rw [hro]
        dsimp only
        rw [ihrep]
        have hseg := replay_one_group env (some b.database)
          ((b :: rest).takeWhile (fun y => y.database = b.database))
          (by
            intro x hx
            have hxdb : x.database = b.database := by
              have := List.mem_takeWhile_imp hx
              simpa using this
            rw [hxdb]
            unfold mapName
            rw [if_neg (hnz b (List.mem_cons_self _ _))])
        rw [hseg]
        unfold originalFetches
        conv_rhs =>
          rw [← List.takeWhile_append_dropWhile
            (p := fun y : SavedBuffer => decide (y.database = b.database)) (l := b :: rest)]
        rw [List.filter_append, List.map_append]

theorem originalFetches_perm (env : Option Nat → DbEnv) {l1 l2 : List SavedBuffer}
    (h : List.Perm l1 l2) :
    List.Perm (originalFetches env l1) (originalFetches env l2) :=
  (h.filter _).map _

/-- Replaying every file `SaveBuffers` wrote succeeds and re-fetches
exactly the fresh entries of the sorted scan, each judged and tagged in
its own database — provided the scan contains a global (database 0)
page, as the writer assumes. -/
theorem SaveBuffers_replay (env : Option Nat → DbEnv) (l : List SavedBuffer)
    (hv : ValidL l)
    (hglob : l = [] ∨ ∃ b ∈ l, b.database = 0) :
    (∀ F ∈ (SaveBuffers l).1,
      ∃ out, ReadBlocks (env F.name) none F.records = Except.ok out) ∧
    replayAll env (SaveBuffers l).1 = originalFetches env (sortBufs l) := by
  have hfiles : (SaveBuffers l).1 = buildFiles (sortBufs l) := by
    rw [SaveBuffers_eq l hv]
  rw [hfiles]
  have hv2 := ValidL_sortBufs l hv
  have hs2 := sortBufs_sorted l
  cases hsb : sortBufs l with
  | nil =>
    constructor
    · intro F hF
      exact absurd hF (by simp [buildFiles])
    · rfl
  | cons b rest =>
    rw [hsb] at hv2 hs2
    have hb0 : b.database = 0 := by
      rcases hglob with rfl | ⟨g, hgl, hg0⟩
      · rw [show sortBufs ([] : List SavedBuffer) = [] from rfl] at hsb
        exact absurd hsb (by simp)
      · have hgm : g ∈ sortBufs l := (sortBufs_perm l).mem_iff.mpr hgl
        rw [hsb] at hgm
        rcases List.mem_cons.mp hgm with rfl | hgr
        · exact hg0
        · have := bufLE_database_le ((List.sorted_cons.mp hs2).1 g hgr)
          omega
    have hsegsub : ∀ x ∈ (b :: rest).takeWhile (fun y => y.database = b.database),
        x ∈ b :: rest := fun x hx => (List.takeWhile_sublist _).subset hx
    have hdwsub : ∀ x ∈ (b :: rest).dropWhile (fun y => y.database = b.database),
        x ∈ b :: rest := fun x hx => (List.dropWhile_sublist _).subset hx
    have hvseg : ValidL ((b :: rest).takeWhile (fun y => y.database = b.database)) :=
      fun x hx => hv2 x (hsegsub x hx)
    have hro := ReadBlocks_groupRecs (env none)
      ((b :: rest).takeWhile (fun y => y.database = b.database)) hvseg
    have hgt := dropWhile_db_gt b.database (b :: rest) hs2
      (by
        intro x hx
        rcases List.mem_cons.mp hx with rfl | hx2
        · exact Nat.le_refl _
        · exact bufLE_database_le ((List.sorted_cons.mp hs2).1 x hx2))
    obtain ⟨auxok, auxrep⟩ := replay_buildFilesAux env
      ((b :: rest).dropWhile (fun y => y.database = b.database)).length
      ((b :: rest).dropWhile (fun y => y.database = b.database)) 1
      (Nat.le_refl _)
      (fun x hx => hv2 x (hdwsub x hx))
      (hs2.sublist (List.dropWhile_sublist _))
      (fun x hx => by
        have := hgt x hx
        omega)
    unfold buildFiles
    constructor
    · intro F hF
      rcases List.mem_cons.mp hF with rfl | hF2
      · exact ⟨_, hro⟩
      · exact auxok F hF2
    · rw [replayAll_cons]
      dsimp only
      rw [hro]
      dsimp only
      rw [auxrep]
      have hseg := replay_one_group env none
        ((b :: rest).takeWhile (fun y => y.database = b.database))
        (by
          intro x hx
          have hxdb : x.database = b.database := by
            have := List.mem_takeWhile_imp hx
            simpa using this
          rw [hxdb, hb0]
          rfl)
      rw [hseg]
      unfold originalFetches
      conv_rhs =>
        rw [← List.takeWhile_append_dropWhile
          (p := fun y : SavedBuffer => decide (y.database = b.database)) (l := b :: rest)]
      rw [List.filter_append, List.map_append]

theorem readLoop_cons (env : DbEnv) (stop : Option Nat) (s : RState) (r : Record)
    (rest : List Record) (i : Nat) :
    readLoop env stop s i (r :: rest) =
      if stopNow stop i then Except.ok s
      else
        match readStep1 env s r with
        | Except.ok s2 => readLoop env stop s2 (i + 1) rest
        | Except.error e => Except.error e := rfl

/-- A maximal strictly-consecutive run pins down the value of `runLen`. -/
theorem runLen_eq_of_shape (db fn : Nat) (fo : Int) :
    ∀ (m : Nat) (pb : Nat) (rest : List SavedBuffer),
      rest.take m = (List.range' (pb + 1) m).map
        (fun bl => (⟨db, fn, fo, bl⟩ : SavedBuffer)) →
      m ≤ rest.length →
      (∀ t, (rest.drop m).head? = some t →
        ¬(t.database = db ∧ t.filenode = fn ∧ t.forknum = fo ∧
          t.blocknum = pb + m + 1)) →
      runLen db fn fo pb rest = m := by
  intro m
  induction m with
  | zero =>
    intro pb rest _ _ hmax
    match rest with
    | [] => rfl
    | t :: r2 =>
      rw [runLen, if_neg]
      intro hc
      exact hmax t rfl ⟨hc.1, hc.2.1, hc.2.2.1, by rw [hc.2.2.2]⟩
  | succ j ih =>
    intro pb rest htake hlen hmax
    match rest with
    | [] => simp at hlen
    | t :: r2 =>
      rw [List.take_succ_cons, range'_cons, List.map_cons] at htake
      injection htake with ht htail
      rw [runLen, if_pos (by rw [ht]; exact ⟨rfl, rfl, rfl, rfl⟩)]
      have hr2 : runLen db fn fo (pb + 1) r2 = j := by
        apply ih (pb + 1) r2 htail
        · simp only [List.length_cons] at hlen
          omega
        · intro t2 ht2 hc
          refine hmax t2 (by rw [List.drop_succ_cons] at *; exact ht2) ?_
          refine ⟨hc.1, hc.2.1, hc.2.2.1, ?_⟩
          rw [hc.2.2.2]
          omega
      rw [hr2]

/-! ### Claims -/

/-- C7: Empty-scan boundary.  Contrary to the claim, a scanned collection
with no valid resident pages produces no save-file at all: the writer
loop body never runs, no file is ever opened, and the final
`Assert(file != NULL)` fails (second component `false`), instead of the
reserved global-objects file being written. -/
theorem c7_empty_scan :
    (SaveBuffers []).1 = [] ∧ (SaveBuffers []).2 = false :=
  ⟨rfl, rfl⟩

/-- C5: Scheduler invariant with parallelism disabled.  While the
remembered slot holds a worker whose observed state is not `stopped`, a
tick dispatches nothing; and in the concrete queue-`[5, 6]` scenario, 5
is dispatched first, a tick while 5 is `started` dispatches nothing, and
6 is dispatched on the tick where 5 reports `stopped`. -/
theorem c5_serial_dispatch (status : WStatus) (registerOk : Bool)
    (s : SchedState) (hocc : s.lastWorker.isSome = true)
    (hst : status ≠ WStatus.stopped) :
    (processOnePendingWorker false status registerOk s).2 = none ∧
    processOnePendingWorker false WStatus.notYetStarted true ⟨[5, 6], none⟩ =
      (⟨[6], some 5⟩, some 5) ∧
    processOnePendingWorker false WStatus.started true ⟨[6], some 5⟩ =
      (⟨[6], some 5⟩, none) ∧
    processOnePendingWorker false WStatus.stopped true ⟨[6], some 5⟩ =
      (⟨[], some 6⟩, some 6) := by
  refine ⟨?_, rfl, rfl, rfl⟩
  unfold processOnePendingWorker
  by_cases he : s.pendingWorkers.isEmpty
  · rw [if_pos he]
  · rw [if_neg he]
    cases hlw : s.lastWorker with
    | none => rw [hlw] at hocc; simp at hocc
    | some w =>
      cases status with
      | started => simp
      | notYetStarted => simp
      | stopped => exact absurd rfl hst

/-- Closed instance of `c5_serial_dispatch` at the scenario tick where
worker 5 is still running. -/
theorem c5_serial_dispatch_witness :
    (processOnePendingWorker false WStatus.started true ⟨[6], some 5⟩).2 = none ∧
    processOnePendingWorker false WStatus.notYetStarted true ⟨[5, 6], none⟩ =
      (⟨[6], some 5⟩, some 5) ∧
    processOnePendingWorker false WStatus.started true ⟨[6], some 5⟩ =
      (⟨[6], some 5⟩, none) ∧
    processOnePendingWorker false WStatus.stopped true ⟨[6], some 5⟩ =
      (⟨[], some 6⟩, some 6) :=
  c5_serial_dispatch WStatus.started true ⟨[6], some 5⟩ rfl (by decide)

/-- C6 counterexample: on the very tick where the slot worker reports
`stopped` (queue `[6]`, slot worker 5), the code registers and
dispatches worker 6 immediately — the dispatch is not deferred to a
later tick as the claim requires. -/
theorem c6_drain_counterexample :
    processOnePendingWorker false WStatus.stopped true ⟨[6], some 5⟩ =
      (⟨[], some 6⟩, some 6) ∧
    (processOnePendingWorker false WStatus.stopped true ⟨[6], some 5⟩).2 ≠ none := by
  exact ⟨rfl, by decide⟩

/-- C6: Scheduler draining rule, amended.  When the slot worker is
observed `stopped` and the pending list is nonempty, the code discards
the old handle and attempts registration in the same tick: on success
the next pending id is dispatched immediately and fills the slot, on
failure the slot is merely cleared. -/
theorem c6_drain_tick (registerOk : Bool) (s : SchedState) (w h : Nat)
    (t : List Nat) (hp : s.pendingWorkers = h :: t)
    (hw : s.lastWorker = some w) :
    processOnePendingWorker false WStatus.stopped registerOk s =
      if registerOk then ((⟨t, some h⟩ : SchedState), (some h : Option Nat))
      else ({ s with lastWorker := none }, none) := by
  have hne : s.pendingWorkers.isEmpty = false := by rw [hp]; rfl
  unfold processOnePendingWorker registerPhase
  rw [hne, hw]
  simp only [Bool.false_eq_true, if_false]
  rw [hp]

/-- Closed instance of `c6_drain_tick`: successful registration
dispatches worker 6 on the stop tick itself. -/
theorem c6_drain_tick_witness :
    processOnePendingWorker false WStatus.stopped true ⟨[6], some 5⟩ =
      if true then ((⟨[], some 6⟩ : SchedState), (some 6 : Option Nat))
      else ({ (⟨[6], some 5⟩ : SchedState) with lastWorker := none }, none) :=
  c6_drain_tick true ⟨[6], some 5⟩ 5 6 [] rfl rfl

/-- C4 counterexample: a worker stopped after its third record restored
only block 10 of the two saved blocks, yet `ReadBlocks` still falls
through to `remove(filepath)` — the save-file is deleted after a partial
pass, while a full pass would have restored blocks 10 and 11. -/
theorem c4_early_stop_counterexample :
    ReadBlocks envRel42 (some 3)
        [Record.rel 42, Record.fork 0, Record.block 10, Record.block 11] =
      Except.ok ⟨[(42, 0, 10)], true⟩ ∧
    ReadBlocks envRel42 none
        [Record.rel 42, Record.fork 0, Record.block 10, Record.block 11] =
      Except.ok ⟨[(42, 0, 10), (42, 0, 11)], true⟩ ∧
    fileDeleted (ReadBlocks envRel42 (some 3)
        [Record.rel 42, Record.fork 0, Record.block 10, Record.block 11]) =
      true := by
  exact ⟨rfl, rfl, rfl⟩

/-- C4: save-file removal, amended.  Every run of `ReadBlocks` that
leaves the decoding loop normally — whether it consumed the whole stream
or stopped early on a shutdown request — removes the save-file; only the
fatal-error paths leave the file in place. -/
theorem c4_early_stop_removal (env : DbEnv) (stop : Option Nat)
    (recs : List Record) :
    (∀ out, ReadBlocks env stop recs = Except.ok out →
      out.fileRemoved = true) ∧
    (∀ e, ReadBlocks env stop recs = Except.error e →
      fileDeleted (ReadBlocks env stop recs) = false) := by
  constructor
  · intro out h
    unfold ReadBlocks at h
    cases hrl : readLoop env stop initR 0 recs with
    | ok s =>
      rw [hrl] at h
      dsimp only at h
      injection h with h2
      rw [← h2]
    | error e =>
      rw [hrl] at h
      simp at h
  · intro e h
    rw [h]
    rfl

/-- Closed instance of `c4_early_stop_removal` at the counterexample
stream: the early-stopped run reports the file as removed. -/
theorem c4_early_stop_removal_witness :
    (⟨[(42, 0, 10)], true⟩ : ReadOutcome).fileRemoved = true :=
  (c4_early_stop_removal envRel42 (some 3)
      [Record.rel 42, Record.fork 0, Record.block 10, Record.block 11]).1
    ⟨[(42, 0, 10)], true⟩ rfl

/-- C9: Write determinism.  Any two scans producing the same multiset of
entries sort to the same list and produce identical save-file output;
the sorted output is ordered by the four-field comparator, which never
reports two distinct entries equal. -/
theorem c9_write_determinism (l1 l2 : List SavedBuffer)
    (hperm : List.Perm l1 l2) :
    sortBufs l1 = sortBufs l2 ∧
    SaveBuffers l1 = SaveBuffers l2 ∧
    List.Sorted bufLE (sortBufs l1) ∧
    (∀ a b : SavedBuffer, a ≠ b → SavedBufferCmp a b ≠ 0) := by
  have h1 : sortBufs l1 = sortBufs l2 :=
    List.eq_of_perm_of_sorted
      ((sortBufs_perm l1).trans (hperm.trans (sortBufs_perm l2).symm))
      (sortBufs_sorted l1) (sortBufs_sorted l2)
  refine ⟨h1, ?_, sortBufs_sorted l1, ?_⟩
  · unfold SaveBuffers writeLoop
    rw [h1]
  · intro a b hne h0
    exact hne (eq_of_SavedBufferCmp_eq_zero h0)

/-- Closed instance of `c9_write_determinism` on a two-element scan and
its reversal. -/
theorem c9_write_determinism_witness :
    sortBufs [(⟨5, 10, 0, 4⟩ : SavedBuffer), ⟨5, 10, 0, 3⟩] =
      sortBufs [(⟨5, 10, 0, 3⟩ : SavedBuffer), ⟨5, 10, 0, 4⟩] ∧
    SaveBuffers [(⟨5, 10, 0, 4⟩ : SavedBuffer), ⟨5, 10, 0, 3⟩] =
      SaveBuffers [(⟨5, 10, 0, 3⟩ : SavedBuffer), ⟨5, 10, 0, 4⟩] ∧
    List.Sorted bufLE (sortBufs [(⟨5, 10, 0, 4⟩ : SavedBuffer), ⟨5, 10, 0, 3⟩]) ∧
    (∀ a b : SavedBuffer, a ≠ b → SavedBufferCmp a b ≠ 0) :=
  c9_write_determinism [⟨5, 10, 0, 4⟩, ⟨5, 10, 0, 3⟩]
    [⟨5, 10, 0, 3⟩, ⟨5, 10, 0, 4⟩] (List.Perm.swap _ _ _)

/-- C3: Replayer range expansion.  A range record of length `L` reaching
a state with block `B` fetched (no wrap, no skips pending) fetches
exactly the prefix of `B+1, ..., B+L` below the fork's current block
count, in increasing order; and the stream `[r:42, f:0, b:10, N:2]`
under any catalog resolving 42 with at least 13 blocks fetches exactly
blocks 10, 11, 12 of filenode 42, fork 0, in that order, then removes
the file. -/
theorem c3_range_expansion (env : DbEnv) (s : RState) (L : Nat)
    (hB : ¬ s.record_blocknum = INVB) (hnw : s.record_blocknum + L < W32)
    (hsr : s.skip_relation = false) (hsf : s.skip_fork = false)
    (hsb : s.skip_block = false) :
    readStep1 env s (Record.range L) = Except.ok { s with
      fetches := s.fetches ++
        ((List.range' (s.record_blocknum + 1) L).takeWhile
            (fun x => decide (x < s.nblocks))).map
          (fun bl => (s.record_filenode, s.record_forknum, bl)) } ∧
    (∀ r, env.relOid 42 = some r → env.forkExists r 0 = true →
      13 ≤ env.nblocksF r 0 →
      ReadBlocks env none
          [Record.rel 42, Record.fork 0, Record.block 10, Record.range 2] =
        Except.ok ⟨[(42, 0, 10), (42, 0, 11), (42, 0, 12)], true⟩) := by
  constructor
  · have h1 : (s.record_blocknum + L) % W32 = s.record_blocknum + L :=
      Nat.mod_eq_of_lt hnw
    have h2 : s.record_blocknum + L + 1 - (s.record_blocknum + 1) = L := by
      omega
    simp only [readStep1, hsr, hsf, hsb, Bool.or_self, if_false, if_neg hB,
      rangeBlocks, h1, h2, Bool.false_eq_true]
  · intro r hrel hfk hnb
    have hb1 : ¬(env.nblocksF r 0 ≤ 10) := by omega
    have h11 : decide (11 < env.nblocksF r 0) = true :=
      decide_eq_true (by omega)
    have h12 : decide (12 < env.nblocksF r 0) = true :=
      decide_eq_true (by omega)
    have e1 : readStep1 env initR (Record.rel 42) =
        Except.ok ⟨some r, false, false, false, 42, -1, INVB, 0, []⟩ := by
      simp [readStep1, initR, hrel]
    have e2 : readStep1 env
        (⟨some r, false, false, false, 42, -1, INVB, 0, []⟩ : RState)
        (Record.fork 0) =
        Except.ok ⟨some r, false, false, false, 42, 0, INVB,
          env.nblocksF r 0, []⟩ := by
      simp [readStep1, hfk]
    have hrb : rangeBlocks 10 2 (env.nblocksF r 0) = [11, 12] := by
      unfold rangeBlocks
      rw [show (10 + 2) % W32 + 1 - (10 + 1) = 2 from by decide]
      rw [show List.range' (10 + 1) 2 = [11, 12] from rfl]
      simp [List.takeWhile_cons, h11, h12]
    have e3 : readStep1 env
        (⟨some r, false, false, false, 42, 0, INVB,
          env.nblocksF r 0, []⟩ : RState) (Record.block 10) =
        Except.ok ⟨some r, false, false, false, 42, 0, 10,
          env.nblocksF r 0, [(42, 0, 10)]⟩ := by
      simp [readStep1, hb1]
    have e4 : readStep1 env
        (⟨some r, false, false, false, 42, 0, 10,
          env.nblocksF r 0, [(42, 0, 10)]⟩ : RState) (Record.range 2) =
        Except.ok ⟨some r, false, false, false, 42, 0, 10,
          env.nblocksF r 0, [(42, 0, 10), (42, 0, 11), (42, 0, 12)]⟩ := by
      simp [readStep1, hrb, INVB]
    unfold ReadBlocks
    rw [readLoop_cons, if_neg (by decide), e1]
    dsimp only
    rw [readLoop_cons, if_neg (by decide), e2]
    dsimp only
    rw [readLoop_cons, if_neg (by decide), e3]
    dsimp only
    rw [readLoop_cons, if_neg (by decide), e4]
    dsimp only
    rw [readLoop_nil]

/-- Closed instance of `c3_range_expansion` at the concrete state `sC3`
and catalog `envRel42`. -/
theorem c3_range_expansion_witness :
    ReadBlocks envRel42 none
        [Record.rel 42, Record.fork 0, Record.block 10, Record.range 2] =
      Except.ok ⟨[(42, 0, 10), (42, 0, 11), (42, 0, 12)], true⟩ :=
  (c3_range_expansion envRel42 sC3 2 (by decide) (by decide) rfl rfl rfl).2
    9 rfl rfl (by decide)

/-- C2: Writer run-length compression.  When the writer, inside a
database group, reaches a buffer heading a maximal strictly-consecutive
run of `k ≥ 2` blocks of one (database, filenode, forknum), the
iteration consumes the whole run (`range_counter = k - 1`) and appends
to the open file possibly a relation and a fork record followed by
exactly one block record and exactly one range record of length `k - 1`
— never `k` separate block records; and every buffer a range record
covers matches the run's database, filenode and forknum exactly
(`runLen_take`-shape conjunct), so a run never crosses a file, fork or
namespace boundary. -/
theorem c2_range_compression (s : WState) (b : SavedBuffer)
    (rest : List SavedBuffer) (F : SFile) (k : Nat)
    (hfd : s.firstDone = true) (hcur : s.curFile = some F)
    (hdb : b.database = s.prev_database)
    (hfo : 0 ≤ b.forknum) (hbn : b.blocknum ≤ 4294967294)
    (hval : ∀ x ∈ rest, x.blocknum ≤ 4294967294)
    (hk : 2 ≤ k)
    (htake : rest.take (k - 1) =
      (List.range' (b.blocknum + 1) (k - 1)).map
        (fun bl => (⟨b.database, b.filenode, b.forknum, bl⟩ : SavedBuffer)))
    (hlen : k - 1 ≤ rest.length)
    (hmax : ∀ t, (rest.drop (k - 1)).head? = some t →
      ¬(t.database = b.database ∧ t.filenode = b.filenode ∧
        t.forknum = b.forknum ∧ t.blocknum = b.blocknum + k)) :
    (writeStep s b rest).2 = k - 1 ∧
    (∃ ids : List Record,
      (∀ r ∈ ids, (∃ fn, r = Record.rel fn) ∨ (∃ fo, r = Record.fork fo)) ∧
      (writeStep s b rest).1.curFile = some ⟨F.name, F.filenum,
        F.records ++ ids ++
          [Record.block b.blocknum, Record.range (k - 1)]⟩) ∧
    (∀ (db fn : Nat) (fo : Int) (pb : Nat) (l : List SavedBuffer),
      l.take (runLen db fn fo pb l) =
        (List.range' (pb + 1) (runLen db fn fo pb l)).map
          (fun bl => (⟨db, fn, fo, bl⟩ : SavedBuffer))) := by
  have hrc : runLen b.database b.filenode b.forknum b.blocknum rest = k - 1 := by
    apply runLen_eq_of_shape b.database b.filenode b.forknum (k - 1)
      b.blocknum rest htake hlen
    intro t ht hc
    refine hmax t ht ⟨hc.1, hc.2.1, hc.2.2.1, ?_⟩
    rw [hc.2.2.2]
    omega
  have hw := writeStep_same_db s b rest hfd hdb
  have hrec := writeStepRecs_eq s b rest F hcur hdb.symm hfo hbn hval
  rw [hw, hrec]
  refine ⟨hrc, ?_, fun db fn fo pb l => runLen_take db fn fo l pb⟩
  refine ⟨(if b.filenode = s.prev_filenode then []
        else [Record.rel b.filenode]) ++
      (if b.forknum = (if b.filenode = s.prev_filenode then s.prev_forknum
          else -1) then [] else [Record.fork b.forknum]), ?_, ?_⟩
  · intro r hr
    rcases List.mem_append.mp hr with h | h
    · refine Or.inl ⟨b.filenode, ?_⟩
      by_cases hc : b.filenode = s.prev_filenode
      · rw [if_pos hc] at h
        exact absurd h (List.not_mem_nil r)
      · rw [if_neg hc] at h
        simpa using h
    · refine Or.inr ⟨b.forknum, ?_⟩
      by_cases hc : b.forknum =
          (if b.filenode = s.prev_filenode then s.prev_forknum else -1)
      · rw [if_pos hc] at h
        exact absurd h (List.not_mem_nil r)
      · rw [if_neg hc] at h
        simpa using h
  · have hk0 : ¬(k - 1 = 0) := by omega
    simp only [stepRecs, hrc, if_neg hk0]
    simp [List.append_assoc]

/-- Closed instance of `c2_range_compression`: the run
10, 11, 12 of filenode 7, fork 0 in the global database, `k = 3`. -/
theorem c2_range_compression_witness :
    (writeStep wC2 bC2 restC2).2 = 3 - 1 ∧
    (∃ ids : List Record,
      (∀ r ∈ ids, (∃ fn, r = Record.rel fn) ∨ (∃ fo, r = Record.fork fo)) ∧
      (writeStep wC2 bC2 restC2).1.curFile =
        some ⟨(⟨none, 1, []⟩ : SFile).name, (⟨none, 1, []⟩ : SFile).filenum,
          (⟨none, 1, []⟩ : SFile).records ++ ids ++
            [Record.block bC2.blocknum, Record.range (3 - 1)]⟩) ∧
    (∀ (db fn : Nat) (fo : Int) (pb : Nat) (l : List SavedBuffer),
      l.take (runLen db fn fo pb l) =
        (List.range' (pb + 1) (runLen db fn fo pb l)).map
          (fun bl => (⟨db, fn, fo, bl⟩ : SavedBuffer))) :=
  c2_range_compression wC2 bC2 restC2 ⟨none, 1, []⟩ 3 rfl rfl rfl (by decide)
    (by decide) (by decide) (by decide) (by decide) (by decide)
    (fun t ht => nomatch ht)

/-- C10: Implicit global-first assumption of the writer.  For every
nonempty scanned collection none of whose pages belongs to the global
namespace (database 0), the `Assert(buf->database == InvalidOid)` on the
first sorted buffer is violated (assert flag `false`), and that first
database's pages are nonetheless written into the reserved file number 1
under the empty display name. -/
theorem c10_missing_global_assert (l : List SavedBuffer) (hv : ValidL l)
    (hne : l ≠ []) (hng : ∀ x ∈ l, x.database ≠ 0) :
    (SaveBuffers l).2 = false ∧
    ∃ b rest, sortBufs l = b :: rest ∧ b.database ≠ 0 ∧
      (SaveBuffers l).1 =
        ⟨none, 1, groupRecs 0 (-1)
            ((b :: rest).takeWhile (fun x => x.database = b.database))⟩ ::
          buildFilesAux 1
            ((b :: rest).dropWhile (fun x => x.database = b.database)) := by
  have heq := SaveBuffers_eq l hv
  cases hsb : sortBufs l with
  | nil =>
    exfalso
    apply hne
    have hp := sortBufs_perm l
    rw [hsb] at hp
    exact hp.symm.eq_nil
  | cons b rest =>
    rw [hsb] at heq
    have hbmem : b ∈ l := (sortBufs_perm l).subset
      (by rw [hsb]; exact List.mem_cons_self b rest)
    have hb0 : b.database ≠ 0 := hng b hbmem
    constructor
    · rw [heq]
      simp [hb0]
    · exact ⟨b, rest, rfl, hb0, by rw [heq]; simp [buildFiles]⟩

/-- Closed instance of `c10_missing_global_assert` on a one-page scan
from database 5. -/
theorem c10_missing_global_assert_witness :
    (SaveBuffers [(⟨5, 10, 0, 3⟩ : SavedBuffer)]).2 = false ∧
    ∃ b rest, sortBufs [(⟨5, 10, 0, 3⟩ : SavedBuffer)] = b :: rest ∧
      b.database ≠ 0 ∧
      (SaveBuffers [(⟨5, 10, 0, 3⟩ : SavedBuffer)]).1 =
        ⟨none, 1, groupRecs 0 (-1)
            ((b :: rest).takeWhile (fun x => x.database = b.database))⟩ ::
          buildFilesAux 1
            ((b :: rest).dropWhile (fun x => x.database = b.database)) :=
  c10_missing_global_assert [⟨5, 10, 0, 3⟩] (by decide) (by decide) (by decide)

/-- C1 counterexample: the one-page scan `[⟨5, 10, 0, 3⟩]` (database 5,
no global page) is fresh in its own database, so the original scan calls
for one fetch; but the writer files it under the empty (global) name,
the replayer judges it in the global catalog where filenode 10 does not
resolve, and the replay issues no fetch at all — the round-trip claim
fails without a global-first hypothesis. -/
theorem c1_round_trip_counterexample :
    ValidL [(⟨5, 10, 0, 3⟩ : SavedBuffer)] ∧
    replayAll envOneDb (SaveBuffers [(⟨5, 10, 0, 3⟩ : SavedBuffer)]).1 = [] ∧
    originalFetches envOneDb [(⟨5, 10, 0, 3⟩ : SavedBuffer)] =
      [(some 5, (10, 0, 3))] ∧
    ¬ List.Perm
        (replayAll envOneDb (SaveBuffers [(⟨5, 10, 0, 3⟩ : SavedBuffer)]).1)
        (originalFetches envOneDb [(⟨5, 10, 0, 3⟩ : SavedBuffer)]) := by
  refine ⟨by decide, rfl, rfl, ?_⟩
  intro hp
  exact absurd hp.length_eq (by decide)

/-- C1: Round-trip of the snapshot engine, amended with the writer's
implicit global-first assumption.  For every valid scanned collection
that is empty or contains a global (database 0) page, every save-file
the writer produces replays without a fatal error, and the multiset of
(name, fetch) requests issued by replaying all files equals the multiset
of fresh entries of the original collection, each judged in its own
database's catalog — range records re-expanded to individual blocks. -/
theorem c1_round_trip (env : Option Nat → DbEnv) (l : List SavedBuffer)
    (hv : ValidL l) (hglob : l = [] ∨ ∃ b ∈ l, b.database = 0) :
    (∀ F ∈ (SaveBuffers l).1,
      ∃ out, ReadBlocks (env F.name) none F.records = Except.ok out) ∧
    List.Perm (replayAll env (SaveBuffers l).1) (originalFetches env l) := by
  obtain ⟨hok, hrep⟩ := SaveBuffers_replay env l hv hglob
  refine ⟨hok, ?_⟩
  rw [hrep]
  exact originalFetches_perm env (sortBufs_perm l)

/-- Closed instance of `c1_round_trip` on a one-page global scan. -/
theorem c1_round_trip_witness :
    (∀ F ∈ (SaveBuffers [(⟨0, 7, 0, 10⟩ : SavedBuffer)]).1,
      ∃ out, ReadBlocks (envOneDb F.name) none F.records = Except.ok out) ∧
    List.Perm
      (replayAll envOneDb (SaveBuffers [(⟨0, 7, 0, 10⟩ : SavedBuffer)]).1)
      (originalFetches envOneDb [(⟨0, 7, 0, 10⟩ : SavedBuffer)]) :=
  c1_round_trip envOneDb [⟨0, 7, 0, 10⟩] (by decide)
    (Or.inr ⟨⟨0, 7, 0, 10⟩, List.Mem.head _, rfl⟩)

end PgHibernate


